import Mathlib

/-!
Shallow embedding of the genisolist rule-evaluation and aggregation engine
(`genisolist.py`), together with theorems checking the natural-language
specification against it.

Strings manipulated by the Python code are modelled as `String` /
`List Char`; Python's unbounded `int` is `Nat` (all integer values in the
program are non-negative); functions that can raise return `Except`.
The filesystem glob and the compiled regular expression are abstracted as
oracle parameters (`globResult`, `search`); everything else is translated
from the source.
-/

namespace Genisolist

/-- Models Python `str.lower` on the ASCII range (the only characters the
configuration tables and claims use). -/
def lowerChar (c : Char) : Char :=
  if 'A' ≤ c ∧ c ≤ 'Z' then Char.ofNat (c.toNat + 32) else c

/-- Python `s.lower()` character by character. -/
def lowerStr (s : List Char) : List Char := s.map lowerChar

/-- Tests that `pre` is an initial segment of `s` (models substring scans). -/
def leadsWith : List Char → List Char → Bool
  | [], _ => true
  | _ :: _, [] => false
  | a :: as, b :: bs => a == b && leadsWith as bs

/-- Models Python's `needle in hay` substring test. -/
def containsSub : List Char → List Char → Bool
  | [], needle => needle.isEmpty
  | c :: t, needle => leadsWith needle (c :: t) || containsSub t needle

/-- The decimal digit character for `n < 10`. -/
def digitChar (n : Nat) : Char := Char.ofNat (48 + n)

/-- Accumulator loop of the decimal representation of a `Nat`.  The first
argument is fuel (structural recursion so the kernel can evaluate it);
`n + 1` is always enough, since `n` shrinks by a factor of ten each step. -/
def natReprAux : Nat → Nat → List Char → List Char
  | 0, _, acc => acc
  | fuel + 1, n, acc =>
    let acc' := digitChar (n % 10) :: acc
    if n < 10 then acc' else natReprAux fuel (n / 10) acc'

/-- Models Python `str(n)` / f-string interpolation of a non-negative int. -/
def natRepr (n : Nat) : List Char := natReprAux (n + 1) n []

/-- Models Python `int(s)` restricted to the plain non-negative decimal
strings the configuration templates use (no sign, no surrounding space). -/
def parseInt (s : List Char) : Option Nat :=
  if s ≠ [] ∧ s.all Char.isDigit then
    some (s.foldl (fun a c => 10 * a + (c.toNat - 48)) 0)
  else none

/-- Models Python `str.split()` (split on runs of whitespace, no empty parts).
The accumulator holds the current word reversed. -/
def splitWSAux : List Char → List Char → List (List Char)
  | [], acc => if acc.isEmpty then [] else [acc.reverse]
  | c :: t, acc =>
    if c.isWhitespace then
      if acc.isEmpty then splitWSAux t [] else acc.reverse :: splitWSAux t []
    else splitWSAux t (c :: acc)

/-- Python `template.split()`. -/
def splitWS (s : List Char) : List (List Char) := splitWSAux s []

/-- Loop of `str.replace`: the first argument is fuel (structural recursion
so the kernel can evaluate it); `s.length` is always enough, since every
step consumes at least one character of `s`. -/
def replaceAllAux : Nat → List Char → List Char → List Char → List Char
  | 0, s, _, _ => s
  | fuel + 1, s, pat, rep =>
    match s with
    | [] => []
    | c :: t =>
      if !pat.isEmpty && leadsWith pat (c :: t) then
        rep ++ replaceAllAux fuel ((c :: t).drop pat.length) pat rep
      else
        c :: replaceAllAux fuel t pat rep

/-- Python `str.replace(pat, rep)`: replace every non-overlapping occurrence,
left to right.  (`pat` is never empty where the program calls this.) -/
def replaceAll (s pat rep : List Char) : List Char :=
  replaceAllAux s.length s pat rep

/-! ## Platform priority scorer (`get_platform_priority`, lines 22–59) -/

/-- The `architectures` table.  In the source the third key is written
`("riscv64")`, which in Python is a plain string, not a one-element tuple;
the inner loop `for arch in arches` therefore iterates over its single
characters, so that row is the list of characters of `"riscv64"`. -/
def architectures : List (List (List Char) × Nat) :=
  [ (["amd64".toList, "x86_64".toList, "64bit".toList], 100),
    (["arm64".toList, "aarch64".toList, "arm64v8".toList], 95),
    ([['r'], ['i'], ['s'], ['c'], ['v'], ['6'], ['4']], 95),
    (["loongson2f".toList, "loongson3".toList], 95),
    (["i386".toList, "i486".toList, "i586".toList, "i686".toList,
      "x86".toList, "32bit".toList], 90),
    (["arm32".toList, "armhf".toList, "armv7".toList], 85) ]

/-- The `oses` table: OS priority at the thousands digit. -/
def oses : List (List Char × Nat) :=
  [("linux".toList, 5000), ("win".toList, 4000),
   ("mac".toList, 3000), ("android".toList, 2000)]

/-- The architecture double loop: the first table row containing a matching
substring wins (every row's score is non-zero, so `if score != 0: break`
fires exactly on the first matching row). -/
def archScore (p : List Char) : Nat :=
  match architectures.find? (fun tier => tier.1.any (fun a => containsSub p a)) with
  | some tier => tier.2
  | none => 0

/-- The OS loop: first matching OS substring adds its score. -/
def osScore (p : List Char) : Nat :=
  match oses.find? (fun o => containsSub p o.1) with
  | some o => o.2
  | none => 0

/-- The scorer `get_platform_priority(platform)`. -/
def get_platform_priority (platform : String) : Nat :=
  let p := lowerStr platform.toList
  archScore p + osScore p

/-! ## Template renderer (`render`, lines 62–79; `render_list`, lines 82–99) -/

/-- Models an `re.Match` object: the whole match (`group(0)`) and the list of
capture groups, `none` for a group that did not participate in the match. -/
structure MatchResult where
  group0 : List Char
  groups : List (Option (List Char))
deriving DecidableEq

/-- Models `result.group(i)`: outer `none` is the `IndexError` Python raises
for a group number the pattern does not have; `some none` is a group that
exists but did not participate. -/
def MatchResult.group (m : MatchResult) (i : Nat) : Option (Option (List Char)) :=
  if i = 0 then some (some m.group0) else m.groups.get? (i - 1)

/-- The text `render` substitutes for group `i`: the matched text, or `""`
for a non-participating (or, vacuously, non-existent) group. -/
def groupText (m : MatchResult) (i : Nat) : List Char :=
  ((m.group i).getD none).getD []

/-- The literal token substituted for group i. -/
def dollarTok (i : Nat) : List Char := '$' :: natRepr i

/-- Python `render(template, result)`: for `i` from `0` to the number of groups,
if the token `$i` occurs in the current template, replace every occurrence
of it by group `i`'s text (`""` when the group did not participate). -/
def render (template : List Char) (m : MatchResult) : List Char :=
  (List.range (m.groups.length + 1)).foldl
    (fun t i =>
      if containsSub t (dollarTok i) then replaceAll t (dollarTok i) (groupText m i)
      else t)
    template

/-- The Python exceptions the modelled code can raise: `int()` and
`str2bool` raise `ValueError`, `result.group(n)` raises `IndexError` for a
group number the pattern does not have, a missing dict key raises
`KeyError`, and the two `assert` statements of `parse_section` raise
`AssertionError` (distinguished here by which assert fired). -/
inductive PyErr where
  | valueError
  | indexError
  | keyError
  | assertNoLocation
  | assertNoPattern
deriving DecidableEq

deriving instance DecidableEq for Except

/-- One iteration of the `render_list` loop for a single token. -/
def renderToken (m : MatchResult) (tok : List Char) : Except PyErr (List Char) :=
  if tok.head? = some '$' then
    match parseInt (tok.drop 1) with
    | none => .error .valueError
    | some n =>
      match m.group n with
      | none => .error .indexError
      | some og => .ok (og.getD [])
  else .ok tok

/-- Sequential traversal: the first raising token aborts the loop. -/
def mapME (f : α → Except ε β) : List α → Except ε (List β)
  | [] => .ok []
  | a :: t =>
    match f a with
    | .error e => .error e
    | .ok b =>
      match mapME f t with
      | .error e => .error e
      | .ok bs => .ok (b :: bs)

/-- The value `render_list` produces for one resolvable token: a literal
token is kept, a group reference resolves to the group's text (empty for a
non-participating group). -/
def tokenValue (m : MatchResult) (tok : List Char) : List Char :=
  if tok.head? = some '$' then groupText m ((parseInt (tok.drop 1)).getD 0) else tok

/-- Python `render_list(template, result)`: split on whitespace; tokens not starting
with `$` are kept literally, `$`-tokens are resolved by group lookup. -/
def render_list (template : List Char) (m : MatchResult) :
    Except PyErr (List (List Char)) :=
  mapME (renderToken m) (splitWS template)

/-- A template piece: literal text, or a single-digit group reference
(the token `$d`).  Every template in which each `$` is immediately
followed by a digit decomposes uniquely into pieces; this is the unit the
claimed substitution rule speaks about. -/
inductive Piece where
  | lit (s : List Char)
  | ref (d : Nat)
deriving DecidableEq

/-- Flatten a piece list back into template text. -/
def flattenPieces : List Piece → List Char
  | [] => []
  | .lit s :: ps => s ++ flattenPieces ps
  | .ref d :: ps => dollarTok d ++ flattenPieces ps

/-- Every `$` of the template begins a reference, i.e. is immediately
followed by a digit (the claim's well-formed templates). -/
def refsOK : List Char → Bool
  | [] => true
  | c :: rest =>
    if c = '$' then
      match rest with
      | [] => false
      | d :: rest' => d.isDigit && refsOK rest'
    else refsOK rest

/-- Greedy decomposition of a template into literal characters and
single-digit references — one digit per `$`, exactly the granularity at
which the increasing-`i` loop of `render` consumes references. -/
def parseTemplate : List Char → List Piece
  | [] => []
  | c :: rest =>
    if c = '$' then
      match rest with
      | [] => [.lit ['$']]
      | d :: rest' =>
        if d.isDigit then .ref (d.toNat - 48) :: parseTemplate rest'
        else .lit ['$'] :: .lit [d] :: parseTemplate rest'
    else .lit [c] :: parseTemplate rest

/-- The simultaneous substitution `render` is claimed to implement: a
reference to an existing group resolves to that group's text (empty for a
non-participating group), a reference past the group count and all literal
text stay as they are. -/
def substPiece (m : MatchResult) : Piece → Piece
  | .lit s => .lit s
  | .ref d => if d ≤ m.groups.length then .lit (groupText m d) else .ref d

/-- Partial substitution after the loop iterations below `i`: references
to already-processed existing groups are resolved, the rest not yet. -/
def substUpTo (m : MatchResult) (i : Nat) : Piece → Piece
  | .lit s => .lit s
  | .ref d => if d < i ∧ d ≤ m.groups.length then .lit (groupText m d) else .ref d

/-- Well-formedness of a piece: literal text is `$`-free and a reference
digit is a single digit. -/
def pieceWF : Piece → Prop
  | .lit s => '$' ∉ s
  | .ref d => d ≤ 9

/-! ## `str2bool` (lines 102–116) -/

/-- Python `str2bool(v)`: `"true"`/`"false"` case-insensitively, else `ValueError`. -/
def str2bool (v : List Char) : Except PyErr Bool :=
  if lowerStr v = "true".toList then .ok true
  else if lowerStr v = "false".toList then .ok false
  else .error .valueError

/-! ## Version comparator

The source does `from version import LooseVersion`; the repository's
`version` module itself is not under `src/`, so it is modelled from the
specification (see `LooseVersion` below). -/

/-- One run of a version string: a maximal run of digits (kept as its
numeric value) or a maximal run of non-digits. -/
inductive VRun where
  | num (n : Nat)
  | str (s : List Char)
deriving DecidableEq

/-- Numeric value of a run of digit characters. -/
def digitsVal (s : List Char) : Nat :=
  s.foldl (fun a c => 10 * a + (c.toNat - 48)) 0

/-- Splits the remaining characters (first argument is fuel, always at least
the length of the remaining list) into alternating digit / non-digit runs. -/
def splitRunsAux : Nat → List Char → List VRun
  | 0, _ => []
  | _ + 1, [] => []
  | fuel + 1, c :: t =>
    if c.isDigit then
      VRun.num (digitsVal ((c :: t).takeWhile Char.isDigit)) ::
        splitRunsAux fuel ((c :: t).dropWhile Char.isDigit)
    else
      VRun.str ((c :: t).takeWhile (fun d => ¬ d.isDigit)) ::
        splitRunsAux fuel ((c :: t).dropWhile (fun d => ¬ d.isDigit))

/-- Split a string into its alternating digit / non-digit runs. -/
def splitRuns (s : List Char) : List VRun := splitRunsAux s.length s

/-- Modelled from the spec: the repository's `version` module (imported at
line 16 of `genisolist.py` and absent from `src/`) supplies `LooseVersion`.
Per the spec, a version string is split into alternating runs of digits and
non-digits; runs are compared pairwise, numeric runs by numeric value,
non-numeric runs lexicographically, and a version that is a strict run
prefix of another orders first.  This definition is the sort key: the run
list. -/
def LooseVersion (s : String) : List VRun := splitRuns s.toList

/-- Three-way comparison on `Nat`. -/
def natCmp (a b : Nat) : Ordering :=
  if a < b then .lt else if b < a then .gt else .eq

/-- Lexicographic comparison of lists by an element comparison; a strict
prefix orders first. -/
def listCmp (f : α → α → Ordering) : List α → List α → Ordering
  | [], [] => .eq
  | [], _ :: _ => .lt
  | _ :: _, [] => .gt
  | a :: as, b :: bs =>
    match f a b with
    | .eq => listCmp f as bs
    | o => o

/-- Three-way comparison of characters by code point. -/
def charCmp (a b : Char) : Ordering := natCmp a.toNat b.toNat

/-- Lexicographic three-way comparison of character lists (Python string
comparison by code point). -/
def charsCmp (a b : List Char) : Ordering := listCmp charCmp a b

/-- Run comparison.  The spec does not say how a numeric run compares with a
non-numeric run at the same position (Python would raise `TypeError`);
modelled as numeric-first so the comparison is total. -/
def vrunCmp : VRun → VRun → Ordering
  | .num a, .num b => natCmp a b
  | .str a, .str b => charsCmp a b
  | .num _, .str _ => .lt
  | .str _, .num _ => .gt

/-- The comparator of the version-ordering claim: compare two version
strings through their `LooseVersion` run keys. -/
def versionCompare (a b : String) : Ordering :=
  listCmp vrunCmp (LooseVersion a) (LooseVersion b)

/-! ## Rule evaluator (`parse_section`, lines 119–223) -/

/-- A configuration section as handed over by `process_ini`: string keys to
string values (Python dicts have no duplicate keys; the first binding is
the binding). -/
abbrev Section := List (String × String)

/-- Python `section.get(k)` / `k in section`. -/
def Section.get? (s : Section) (k : String) : Option String :=
  (List.find? (fun p => p.1 = k) s).map (fun p => p.2)

/-- Number of entries of a section. -/
def Section.size (s : Section) : Nat := s.length

/-- The key the loop probes at index i. -/
def locKey (i : Nat) : String := "location_" ++ String.mk (natRepr i)

/-- The `while True` loop collecting `location_0, location_1, …` until the
first missing index.  The fuel starts at `s.size + 1`: the loop cannot take
more iterations than the section has entries, since each successful
iteration needs one more distinct present key. -/
def collectLocs (s : Section) : Nat → Nat → List String
  | 0, _ => []
  | fuel + 1, i =>
    match s.get? (locKey i) with
    | none => []
    | some l => l :: collectLocs s fuel (i + 1)

/-- Lines 152–162: a single `location` key wins; otherwise the contiguous
`location_i` sequence. -/
def getLocations (s : Section) : List String :=
  match s.get? "location" with
  | some l => [l]
  | none => collectLocs s (s.size + 1) 0

/-- Python `int(section.get("listvers", 0xFF))`: the default is already an int. -/
def listversOf (s : Section) : Option Nat :=
  match s.get? "listvers" with
  | none => some 255
  | some v => parseInt v.toList

/-- The validated header data of a section (lines 152–170). -/
structure HeaderData where
  locations : List String
  pattern : String
  listvers : Nat
  pattern_use_name : Bool
deriving DecidableEq

/-- Lines 152–170 of `parse_section`, everything before the file scan:
location resolution, the two asserts, `re.compile` (modelled as always
succeeding; the pattern itself is abstracted by the `search` oracle),
`listvers` and `pattern_use_name` parsing. -/
def parse_section_header (s : Section) : Except PyErr HeaderData :=
  let locations := getLocations s
  if locations = [] then .error .assertNoLocation
  else
    let pattern := (s.get? "pattern").getD ""
    if pattern = "" then .error .assertNoPattern
    else
      match listversOf s with
      | none => .error .valueError
      | some lv =>
        match str2bool ((s.get? "pattern_use_name").getD "false").toList with
        | .error e => .error e
        | .ok b => .ok ⟨locations, pattern, lv, b⟩

/-- The sort key stored in a file item's `sort_weight` (line 200 or 206):
either the default `[LooseVersion(version), platform_priority, type]`
triple or the custom rendered list of strings. -/
inductive SortWeight where
  | triple (v : List VRun) (p : Nat) (t : String)
  | custom (l : List String)
deriving DecidableEq

/-- Python list comparison of two `sort_weight` values.  Two values of the
same rule always have the same shape; comparing a triple with a custom list
would raise `TypeError` in Python and is modelled arbitrarily as `.lt`. -/
def swCmp : SortWeight → SortWeight → Ordering
  | .triple v p t, .triple v' p' t' =>
    match listCmp vrunCmp v v' with
    | .eq =>
      match natCmp p p' with
      | .eq => charsCmp t.toList t'.toList
      | o => o
    | o => o
  | .custom l, .custom l' => listCmp (fun a b => charsCmp a.toList b.toList) l l'
  | .triple _ _ _, .custom _ => .lt
  | .custom _, .triple _ _ _ => .gt

/-- A "file item" as built at lines 189–206. -/
structure FileItem where
  path : String
  category : String
  distro : String
  version : String
  type : String
  platform : String
  sort_weight : SortWeight
deriving DecidableEq

/-- Stable insertion of `x` (an element earlier in the input than everything
in the list) into an already-processed list: `x` goes in front of the first
element `y` with `le x y`. -/
def insertSorted (le : α → α → Bool) (x : α) : List α → List α
  | [] => [x]
  | y :: ys => if le x y then x :: y :: ys else y :: insertSorted le x ys

/-- Stable sort (insertion sort).  With `le x y` meaning "`x` may stay in
front of `y`", this has exactly the observable behaviour of Python's stable
`list.sort`: elements whose keys compare equal keep their input order. -/
def sortStable (le : α → α → Bool) : List α → List α
  | [] => []
  | x :: xs => insertSorted le x (sortStable le xs)

/-- Line 214: `file_list.sort(key=lambda x: x["sort_weight"], reverse=True)`
— stable descending sort by `sort_weight`. -/
def fileSortDesc (l : List FileItem) : List FileItem :=
  sortStable (fun a b => swCmp a.sort_weight b.sort_weight ≠ Ordering.lt) l

/-- Lines 216–221: walk the sorted group, accumulating the set of distinct
versions seen (`seen`, a duplicate-free list); the item that pushes the
count over `listvers` is dropped and the loop breaks. -/
def capGroup (listvers : Nat) : List FileItem → List String → List FileItem
  | [], _ => []
  | f :: rest, seen =>
    let seen' := if f.version ∈ seen then seen else f.version :: seen
    if seen'.length > listvers then []
    else f :: capGroup listvers rest seen'

/-- Lines 213–221 for one value of the `files` dict: sort descending, then
cap by distinct version count. -/
def processGroup (listvers : Nat) (g : List FileItem) : List FileItem :=
  capGroup listvers (fileSortDesc g) []

/-- Lines 212–223: concatenate the processed groups in insertion order. -/
def parse_section_results (listvers : Nat) (groups : List (String × List FileItem)) :
    List FileItem :=
  (groups.map (fun g => processGroup listvers g.2)).flatten

/-- The final path segment (`file_path.name`), searched instead of the full
relative path when `pattern_use_name` is set. -/
def lastSegment (p : String) : String :=
  String.mk ((p.toList.reverse.takeWhile (fun c => c ≠ '/')).reverse)

/-- Lines 189–210 for one matched file: build the file item and its grouping
key.  Evaluation order of the Python dict literal reaches
`section["distro"]` (a `KeyError` when absent) before anything can be
appended; the rendered templates themselves never raise, but a custom
`sort_by` goes through `render_list`, which can. -/
def buildFileItem (sec : Section) (relpath : String) (r : MatchResult) :
    Except PyErr (String × FileItem) :=
  match sec.get? "distro" with
  | none => .error .keyError
  | some distro =>
    let version := String.mk (render ((sec.get? "version").getD "").toList r)
    let ty := String.mk (render ((sec.get? "type").getD "").toList r)
    let platform := String.mk (render ((sec.get? "platform").getD "").toList r)
    let custom_sort_by := (sec.get? "sort_by").getD ""
    let sortw : Except PyErr SortWeight :=
      if custom_sort_by = "" then
        .ok (.triple (LooseVersion version) (get_platform_priority platform) ty)
      else
        match render_list custom_sort_by.toList r with
        | .error e => .error e
        | .ok l => .ok (.custom (l.map String.mk))
    match sortw with
    | .error e => .error e
    | .ok sw =>
      let key := String.mk (render ((sec.get? "key_by").getD "").toList r)
      .ok (key, { path := relpath, category := (sec.get? "category").getD "os",
                  distro, version, type := ty, platform, sort_weight := sw })

/-- Lines 176–210: iterate over the globbed relative paths in order; search
the full path or only the final segment; skip non-matching paths silently;
build a `(grouping key, file item)` pair for each match.  The compiled
pattern's `search` is abstracted as an oracle from the searched string to
an optional match. -/
def scanLoop (sec : Section) (useName : Bool) (search : String → Option MatchResult) :
    List String → Except PyErr (List (String × FileItem))
  | [] => .ok []
  | p :: rest =>
    match search (if useName then lastSegment p else p) with
    | none => scanLoop sec useName search rest
    | some r =>
      match buildFileItem sec p r with
      | .error e => .error e
      | .ok kv =>
        match scanLoop sec useName search rest with
        | .error e => .error e
        | .ok kvs => .ok (kv :: kvs)

/-- Python `files[key].append(file_item)` on a `defaultdict(list)`: groups appear in
first-touch order, items within a group in scan order. -/
def addToGroup : List (String × List FileItem) → String → FileItem →
    List (String × List FileItem)
  | [], k, it => [(k, [it])]
  | (k', v) :: rest, k, it =>
    if k' = k then (k', v ++ [it]) :: rest else (k', v) :: addToGroup rest k it

/-- Build the `files` dict from the scan output. -/
def groupByKey (kvs : List (String × FileItem)) : List (String × List FileItem) :=
  kvs.foldl (fun acc kv => addToGroup acc kv.1 kv.2) []

/-- The evaluator `parse_section(section, root)`: header validation, file scan, grouping,
per-group sort and version cap.  The filesystem is abstracted by
`globResult` (the relative paths produced by `root.glob(location)` for each
location glob, in glob order) and the compiled pattern by `search`. -/
def parse_section (sec : Section) (globResult : String → List String)
    (search : String → Option MatchResult) : Except PyErr (List FileItem) :=
  match parse_section_header sec with
  | .error e => .error e
  | .ok hd =>
    match scanLoop sec hd.pattern_use_name search ((hd.locations.map globResult).flatten) with
    | .error e => .error e
    | .ok kvs => .ok (parse_section_results hd.listvers (groupByKey kvs))

/-! ## `parse_file` (lines 226–247) and `urljoin` -/

/-- Everything up to and including the last `/`, or `""` when there is none. -/
def takeThruLastSlash (l : List Char) : List Char :=
  (l.reverse.dropWhile (fun c => c ≠ '/')).reverse

/-- Models `urllib.parse.urljoin(base, url)` restricted to the shapes this
program produces: `url` is a root-relative file path (no scheme, no leading
slash, as produced by `file_path.relative_to(root)`), and `base` carries no
query or fragment.  `urljoin` then resolves by dropping everything after
the last slash of `base` and appending `url`. -/
def urljoin (base url : String) : String :=
  String.mk (takeThruLastSlash base.toList ++ url.toList)

/-- The externally visible listing entry. -/
structure ListingEntry where
  name : String
  url : String
deriving DecidableEq

/-- The converter `parse_file(file_item, urlbase)`: the URL and the display name. -/
def parse_file (f : FileItem) (urlbase : String) : ListingEntry :=
  { url := urljoin urlbase f.path,
    name :=
      if f.platform ≠ "" then
        f.version ++ " (" ++ f.platform ++
          (if f.type ≠ "" then ", " ++ f.type else "") ++ ")"
      else f.version }

/-! ## Aggregation engine (`gen_from_sections`, lines 250–305) -/

/-- Errors escaping `gen_from_sections` itself: the uncaught `KeyError` of
`section["distro"]` (line 280, outside the `try`), or a rule error
re-raised in strict mode (line 292). -/
inductive AggErr where
  | keyErrorDistro
  | raised (e : PyErr)
deriving DecidableEq

/-- The accumulated `results` defaultdict: `(distro, category)` keys in
first-touch order. -/
abbrev Results := List ((String × String) × List FileItem)

/-- Append a rule's items to its `(distro, category)` group.  A rule that
produced no items never touches the dict (the `results[...]` access sits
inside the `for file_item in ...` loop). -/
def addItems (res : Results) (k : String × String) (items : List FileItem) : Results :=
  if items.isEmpty then res else go res
where
  go : Results → Results
    | [] => [(k, items)]
    | (k', v) :: rest => if k' = k then (k', v ++ items) :: rest else (k', v) :: go rest

/-- Lines 282–283: `section["category"] = "os"` when absent (dict assignment
appends a new binding). -/
def withCategoryDefault (s : Section) : Section :=
  if (Section.get? s "category").isNone then s ++ [("category", "os")] else s

/-- The per-section loop of `gen_from_sections` (lines 277–292).  The
evaluation of one section (`parse_section` with its filesystem and regex
oracles applied) is abstracted as `evalSec`.  Reading `section["distro"]`
happens before the `try`, so its `KeyError` aborts the loop uncaught and
without setting the flag; an error from `evalSec` sets the
`exit_with_error` flag and is re-raised only in strict mode. -/
def gen_loop (evalSec : Section → Except PyErr (List FileItem)) (strict : Bool) :
    List (String × Section) → Results → Bool → Except AggErr Results × Bool
  | [], res, flag => (.ok res, flag)
  | (sname, sec) :: rest, res, flag =>
    if sname.toList.head? = some '%' then gen_loop evalSec strict rest res flag
    else
      match sec.get? "distro" with
      | none => (.error .keyErrorDistro, flag)
      | some d =>
        let sec' := withCategoryDefault sec
        let c := (sec'.get? "category").getD "os"
        match evalSec sec' with
        | .ok items => gen_loop evalSec strict rest (addItems res (d, c) items) flag
        | .error e =>
          if strict then (.error (.raised e), true)
          else gen_loop evalSec strict rest res true

/-- Python `dN.get(distro, 0xFFFF)` (line 303): table lookup with default `0xFFFF`. -/
def dNget (tbl : List (String × Nat)) (d : String) : Nat :=
  (((tbl.find? (fun p => p.1 = d)).map (fun p => p.2)).getD 0xFFFF)

/-- Stable ascending sort by a numeric key — the observable behaviour of
`results.sort(key=...)` at line 303. -/
def sortByKey (k : α → Nat) (l : List α) : List α :=
  sortStable (fun a b => decide (k a ≤ k b)) l

/-- The output group record. -/
structure ListingGroup where
  distro : String
  category : String
  urls : List ListingEntry
deriving DecidableEq

/-- Lines 294–302: per-group final descending sort by `sort_weight`, then
conversion to listing entries, in dict insertion order. -/
def finalizeGroups (urlbase : String) (res : Results) : List ListingGroup :=
  res.map (fun kv =>
    { distro := kv.1.1, category := kv.1.2,
      urls := (fileSortDesc kv.2).map (fun f => parse_file f urlbase) })

/-- Line 303: `results.sort(key=lambda x: dN.get(x["distro"], 0xFFFF))`. -/
def orderGroups (tbl : List (String × Nat)) (gs : List ListingGroup) : List ListingGroup :=
  sortByKey (fun g => dNget tbl g.distro) gs

/-- The results accumulated by a non-strict `gen_from_sections` run:
reserved `%`-sections are skipped; a section whose evaluation fails
contributes nothing; a successful section appends its items to its
`(distro, category)` group. -/
def nonStrictFold (evalSec : Section → Except PyErr (List FileItem)) :
    List (String × Section) → Results → Results
  | [], res => res
  | (sname, sec) :: rest, res =>
    if sname.toList.head? = some '%' then nonStrictFold evalSec rest res
    else
      match evalSec (withCategoryDefault sec) with
      | .ok items =>
        nonStrictFold evalSec rest
          (addItems res ((Section.get? sec "distro").getD "",
            (Section.get? (withCategoryDefault sec) "category").getD "os") items)
      | .error _ => nonStrictFold evalSec rest res

/-- Whether one (non-reserved) section's evaluation raised. -/
def ruleFailed (evalSec : Section → Except PyErr (List FileItem))
    (p : String × Section) : Bool :=
  !(p.1.toList.head? == some '%') &&
    (match evalSec (withCategoryDefault p.2) with
     | .ok _ => false
     | .error _ => true)

/-! ## Concrete instances used by the claim checks -/

/-- A match with ten capture groups `"A"` … `"J"`. -/
def m10 : MatchResult :=
  ⟨"x".toList,
   ["A".toList, "B".toList, "C".toList, "D".toList, "E".toList,
    "F".toList, "G".toList, "H".toList, "I".toList, "J".toList].map some⟩

/-- A match with two capture groups `"A"`, `"B"`. -/
def m2 : MatchResult := ⟨"AB".toList, [some "A".toList, some "B".toList]⟩

/-- The match of the rendering example of the spec: groups `"2024"`, `"10"`. -/
def mW : MatchResult := ⟨"2024-10".toList, [some "2024".toList, some "10".toList]⟩

/-- The same match with the second group not participating. -/
def mX : MatchResult := ⟨"2024-".toList, [some "2024".toList, none]⟩

/-- A file item with the given version and path and the default sort weight
an empty-platform, empty-type rule produces. -/
def exItem (v p : String) : FileItem :=
  { path := p, category := "os", distro := "d", version := v, type := "",
    platform := "", sort_weight := .triple (LooseVersion v) (get_platform_priority "") "" }

/-- Ten files sharing five distinct versions, two files per version, in
scrambled scan order. -/
def exampleGroup : List FileItem :=
  [exItem "1" "a1", exItem "5" "a5", exItem "3" "a3", exItem "2" "a2",
   exItem "4" "a4", exItem "1" "b1", exItem "5" "b5", exItem "3" "b3",
   exItem "2" "b2", exItem "4" "b4"]

/-- A listing group of a distribution present in the priority table below. -/
def gFoo : ListingGroup := ⟨"foo", "os", []⟩

/-- A listing group of a distribution absent from the priority table below. -/
def gBar : ListingGroup := ⟨"bar", "os", []⟩

/-- A well-formed section. -/
def secGood : Section := [("distro", "good"), ("location", "x"), ("pattern", "p")]

/-- A section with no `distro` key: reading it raises `KeyError` at line 280
of `gen_from_sections`, outside the `try`. -/
def secNoDistro : Section := [("location", "x"), ("pattern", "p")]

/-- A section with no `pattern` key (its `parse_section` raises). -/
def secNoPattern : Section := [("distro", "bad"), ("location", "x")]

/-- An evaluation oracle for the aggregation checks: sections with a
`pattern` key succeed with one item, the rest fail like `parse_section`
does on a missing pattern. -/
def evalW (sec : Section) : Except PyErr (List FileItem) :=
  if (Section.get? sec "pattern").isSome then .ok [exItem "1" "q"]
  else .error .assertNoPattern

/-- A file item with platform and type set. -/
def fPT : FileItem := ⟨"dir/a.iso", "os", "d", "1.0", "iso", "amd64", .custom []⟩

/-- A file item with a platform but no type. -/
def fP : FileItem := ⟨"dir/a.iso", "os", "d", "1.0", "", "amd64", .custom []⟩

/-- A file item with a type but no platform. -/
def fV : FileItem := ⟨"dir/a.iso", "os", "d", "1.0", "iso", "", .custom []⟩

/-- A section using the contiguous `location_0, location_1` form. -/
def sW1 : Section :=
  [("location_0", "iso/*"), ("location_1", "img/*"), ("pattern", "pp"), ("distro", "d")]

/-- A section with no location at all. -/
def sW2 : Section := [("pattern", "pp"), ("distro", "d")]

/-- A section with a location but no pattern. -/
def sW3 : Section := [("location", "x"), ("distro", "d")]

/-- A section whose `pattern_use_name` is not a boolean. -/
def sW4 : Section :=
  [("location", "x"), ("pattern", "pp"), ("pattern_use_name", "yes"), ("distro", "d")]

/-! ## Helper lemmas -/

theorem foldl_const {β γ : Type _} (f : β → γ → β) (b : β) :
    ∀ l : List γ, (∀ i ∈ l, f b i = b) → l.foldl f b = b
  | [], _ => rfl
  | i :: t, h => by
    rw [List.foldl_cons, h i (List.mem_cons_self i t)]
    exact foldl_const f b t fun j hj => h j (List.mem_cons_of_mem i hj)

theorem containsSub_not_head (c : Char) (pre : List Char) :
    ∀ t : List Char, c ∉ t → containsSub t (c :: pre) = false
  | [], _ => rfl
  | d :: t', h => by
    have h1 : c ≠ d := fun e => h (by simp [e])
    have h2 : c ∉ t' := fun e => h (by simp [e])
    simp [containsSub, leadsWith, containsSub_not_head c pre t' h2, h1]

theorem leadsWith_refl : ∀ l : List Char, leadsWith l l = true
  | [] => rfl
  | _ :: t => by simp [leadsWith, leadsWith_refl t]

theorem containsSub_self (c : Char) (t : List Char) :
    containsSub (c :: t) (c :: t) = true := by
  simp [containsSub, leadsWith_refl]

theorem replaceAllAux_nil (fuel : Nat) (pat rep : List Char) :
    replaceAllAux fuel [] pat rep = [] := by
  cases fuel <;> rfl

theorem replaceAll_self (c : Char) (t rep : List Char) :
    replaceAll (c :: t) (c :: t) rep = rep := by
  unfold replaceAll
  rw [List.length_cons]
  simp [replaceAllAux, leadsWith_refl, List.drop_succ_cons, List.drop_length,
    replaceAllAux_nil]

theorem insertSorted_perm (le : α → α → Bool) (x : α) :
    ∀ l : List α, (insertSorted le x l).Perm (x :: l)
  | [] => List.Perm.refl _
  | y :: ys => by
    unfold insertSorted
    by_cases h : le x y
    · simp [h]
    · rw [if_neg h]
      exact ((insertSorted_perm le x ys).cons y).trans (List.Perm.swap x y ys)

theorem sortStable_perm (le : α → α → Bool) : ∀ l : List α, (sortStable le l).Perm l
  | [] => List.Perm.refl _
  | x :: xs => (insertSorted_perm le x _).trans ((sortStable_perm le xs).cons x)

theorem insertSorted_pairwise (k : α → Nat) (x : α) :
    ∀ l : List α, l.Pairwise (fun a b => k a ≤ k b) →
      (insertSorted (fun a b => decide (k a ≤ k b)) x l).Pairwise (fun a b => k a ≤ k b)
  | [], _ => by simp [insertSorted]
  | y :: ys, h => by
    rcases List.pairwise_cons.mp h with ⟨hy, hys⟩
    unfold insertSorted
    by_cases hxy : k x ≤ k y
    · rw [if_pos (show decide (k x ≤ k y) = true by simp [hxy])]
      exact List.pairwise_cons.mpr
        ⟨fun z hz => by
          rcases List.mem_cons.mp hz with rfl | hz'
          · exact hxy
          · exact le_trans hxy (hy z hz'), h⟩
    · rw [if_neg (by simpa using hxy)]
      refine List.pairwise_cons.mpr ⟨fun z hz => ?_, insertSorted_pairwise k x ys hys⟩
      have hz' := (insertSorted_perm _ x ys).mem_iff.mp hz
      rcases List.mem_cons.mp hz' with rfl | hz''
      · omega
      · exact hy z hz''

theorem sortByKey_pairwise (k : α → Nat) :
    ∀ l : List α, (sortByKey k l).Pairwise (fun a b => k a ≤ k b)
  | [] => List.Pairwise.nil
  | x :: xs => insertSorted_pairwise k x _ (sortByKey_pairwise k xs)

theorem insertSorted_filter (k : α → Nat) (v : Nat) (x : α) :
    ∀ l : List α,
      (insertSorted (fun a b => decide (k a ≤ k b)) x l).filter (fun a => k a == v) =
        if k x == v then x :: l.filter (fun a => k a == v)
        else l.filter (fun a => k a == v)
  | [] => by
    by_cases hx : k x == v <;> simp [insertSorted, List.filter, hx]
  | y :: ys => by
    unfold insertSorted
    by_cases hxy : k x ≤ k y
    · rw [if_pos (show decide (k x ≤ k y) = true by simp [hxy])]
      by_cases hx : (k x == v) = true <;> simp [List.filter_cons, hx]
    · rw [if_neg (by simpa using hxy), List.filter_cons, List.filter_cons,
        insertSorted_filter k v x ys]
      by_cases hx : (k x == v) = true
      · have hxv : k x = v := by simpa using hx
        have hyv : (k y == v) = false := by
          simp only [beq_eq_false_iff_ne, ne_eq]
          intro e
          omega
        simp [hx, hyv]
      · simp only [Bool.not_eq_true] at hx
        simp [hx]

theorem sortByKey_filter (k : α → Nat) (v : Nat) :
    ∀ l : List α, (sortByKey k l).filter (fun a => k a == v) = l.filter (fun a => k a == v)
  | [] => rfl
  | x :: xs => by
    show (insertSorted _ x (sortByKey k xs)).filter _ = _
    rw [insertSorted_filter, sortByKey_filter k v xs, List.filter_cons]

theorem capGroup_cons (lv : Nat) (f : FileItem) (rest : List FileItem) (seen : List String) :
    capGroup lv (f :: rest) seen
      = if (if f.version ∈ seen then seen else f.version :: seen).length > lv then []
        else f :: capGroup lv rest (if f.version ∈ seen then seen else f.version :: seen) :=
  rfl

theorem capGroup_take (lv : Nat) :
    ∀ (l : List FileItem) (seen : List String), ∃ n, capGroup lv l seen = l.take n
  | [], _ => ⟨0, rfl⟩
  | f :: rest, seen => by
    rw [capGroup_cons]
    by_cases hc : (if f.version ∈ seen then seen else f.version :: seen).length > lv
    · exact ⟨0, by rw [if_pos hc]; rfl⟩
    · obtain ⟨n, hn⟩ :=
        capGroup_take lv rest (if f.version ∈ seen then seen else f.version :: seen)
      exact ⟨n + 1, by rw [if_neg hc, hn]; rfl⟩

theorem capGroup_card (lv : Nat) :
    ∀ (l : List FileItem) (seen : List String), seen.Nodup →
      (seen ++ (capGroup lv l seen).map FileItem.version).toFinset.card ≤
        max seen.length lv
  | [], seen, _ => by
    simp only [capGroup, List.map_nil, List.append_nil]
    exact le_trans (List.toFinset_card_le seen) (le_max_left _ _)
  | f :: rest, seen, hnd => by
    rw [capGroup_cons]
    by_cases hm : f.version ∈ seen
    · simp only [if_pos hm]
      by_cases hc : seen.length > lv
      · rw [if_pos hc]
        simp only [List.map_nil, List.append_nil]
        exact le_trans (List.toFinset_card_le seen) (le_max_left _ _)
      · rw [if_neg hc]
        have hrec := capGroup_card lv rest seen hnd
        have hsets :
            (seen ++ (f :: capGroup lv rest seen).map FileItem.version).toFinset
              = (seen ++ (capGroup lv rest seen).map FileItem.version).toFinset := by
          simp only [List.toFinset_append, List.map_cons, List.toFinset_cons,
            Finset.union_insert]
          exact Finset.insert_eq_self.mpr
            (Finset.mem_union_left _ (List.mem_toFinset.mpr hm))
        rw [hsets]
        exact hrec
    · simp only [if_neg hm]
      by_cases hc : (f.version :: seen).length > lv
      · rw [if_pos hc]
        simp only [List.map_nil, List.append_nil]
        exact le_trans (List.toFinset_card_le seen) (le_max_left _ _)
      · rw [if_neg hc]
        have hnd' : (f.version :: seen).Nodup := List.nodup_cons.mpr ⟨hm, hnd⟩
        have hrec := capGroup_card lv rest (f.version :: seen) hnd'
        have hlen : (f.version :: seen).length ≤ lv := Nat.not_lt.mp hc
        have hsets :
            (seen ++ (f :: capGroup lv rest (f.version :: seen)).map FileItem.version).toFinset
              = ((f.version :: seen)
                  ++ (capGroup lv rest (f.version :: seen)).map FileItem.version).toFinset := by
          simp only [List.toFinset_append, List.map_cons, List.toFinset_cons,
            Finset.union_insert, Finset.insert_union]
        rw [hsets]
        refine le_trans hrec ?_
        simp only [List.length_cons] at hlen ⊢
        omega

theorem processGroup_card (lv : Nat) (g : List FileItem) :
    ((processGroup lv g).map FileItem.version).toFinset.card ≤ lv := by
  have h := capGroup_card lv (fileSortDesc g) [] List.nodup_nil
  simpa [processGroup] using h

theorem processGroup_take (lv : Nat) (g : List FileItem) :
    ∃ n, processGroup lv g = (fileSortDesc g).take n :=
  capGroup_take lv (fileSortDesc g) []

theorem collectLocs_eq (s : Section) (k : Nat) (f : Nat → String)
    (hp : ∀ j, j < k → Section.get? s (locKey j) = some (f j))
    (hk : Section.get? s (locKey k) = none) :
    ∀ fuel i, i ≤ k → k - i < fuel →
      collectLocs s fuel i = (List.range' i (k - i)).map f := by
  intro fuel
  induction fuel with
  | zero => intro i _ h; omega
  | succ fuel ih =>
    intro i hik hfuel
    by_cases hik' : i = k
    · subst hik'
      simp [collectLocs, hk]
    · have hi : i < k := by omega
      have e : k - i = (k - (i + 1)) + 1 := by omega
      rw [show collectLocs s (fuel + 1) i
          = (match Section.get? s (locKey i) with
             | none => []
             | some l => l :: collectLocs s fuel (i + 1)) from rfl]
      rw [hp i hi, e, List.range'_succ, List.map_cons,
        ih (i + 1) (by omega) (by omega)]

theorem getLocations_single (s : Section) (l : String)
    (h : Section.get? s "location" = some l) : getLocations s = [l] := by
  simp [getLocations, h]

theorem getLocations_contiguous (s : Section) (k : Nat) (f : Nat → String)
    (hmiss : Section.get? s "location" = none)
    (hp : ∀ j, j < k → Section.get? s (locKey j) = some (f j))
    (hk : Section.get? s (locKey k) = none)
    (hsize : k ≤ Section.size s) :
    getLocations s = (List.range k).map f := by
  unfold getLocations
  rw [hmiss]
  rw [collectLocs_eq s k f hp hk (Section.size s + 1) 0 (by omega) (by omega)]
  simp [List.range_eq_range']

theorem natCmp_refl (a : Nat) : natCmp a a = .eq := by
  simp [natCmp]

theorem natCmp_eq {a b : Nat} (h : natCmp a b = .eq) : a = b := by
  unfold natCmp at h
  split_ifs at h <;> omega

theorem natCmp_swap (a b : Nat) : natCmp b a = (natCmp a b).swap := by
  unfold natCmp
  rcases Nat.lt_trichotomy a b with h | h | h
  · rw [if_neg (show ¬ b < a by omega), if_pos h, if_pos h]
    rfl
  · subst h
    rw [if_neg (lt_irrefl a), if_neg (lt_irrefl a)]
    rfl
  · rw [if_pos h, if_neg (show ¬ a < b by omega), if_pos h]
    rfl

theorem natCmp_trans {a b c : Nat} (h1 : natCmp a b = .lt) (h2 : natCmp b c = .lt) :
    natCmp a c = .lt := by
  unfold natCmp at h1 h2 ⊢
  split_ifs at h1 h2 ⊢ <;> first | rfl | omega | simp_all

theorem listCmp_refl (f : α → α → Ordering) (hrefl : ∀ a, f a a = .eq) :
    ∀ l, listCmp f l l = .eq
  | [] => rfl
  | a :: t => by
    simp [listCmp, hrefl a, listCmp_refl f hrefl t]

theorem listCmp_eq (f : α → α → Ordering) (heq : ∀ a b, f a b = .eq → a = b) :
    ∀ x y, listCmp f x y = .eq → x = y
  | [], [], _ => rfl
  | [], _ :: _, h => by simp [listCmp] at h
  | _ :: _, [], h => by simp [listCmp] at h
  | a :: as, b :: bs, h => by
    unfold listCmp at h
    cases hab : f a b with
    | eq =>
      rw [hab] at h
      rw [heq a b hab, listCmp_eq f heq as bs h]
    | lt => rw [hab] at h; exact absurd h (by simp)
    | gt => rw [hab] at h; exact absurd h (by simp)

theorem listCmp_swap (f : α → α → Ordering) (hswap : ∀ a b, f b a = (f a b).swap) :
    ∀ x y, listCmp f y x = (listCmp f x y).swap
  | [], [] => rfl
  | [], _ :: _ => rfl
  | _ :: _, [] => rfl
  | a :: as, b :: bs => by
    unfold listCmp
    rw [hswap a b]
    cases hab : f a b <;> simp [Ordering.swap, listCmp_swap f hswap as bs]

theorem listCmp_trans (f : α → α → Ordering)
    (heq : ∀ a b, f a b = .eq → a = b)
    (hrefl : ∀ a, f a a = .eq)
    (htr : ∀ a b c, f a b = .lt → f b c = .lt → f a c = .lt) :
    ∀ x y z, listCmp f x y = .lt → listCmp f y z = .lt → listCmp f x z = .lt
  | [], [], _, h1, _ => by simp [listCmp] at h1
  | [], _ :: _, [], _, h2 => by simp [listCmp] at h2
  | [], _ :: _, _ :: _, _, _ => rfl
  | _ :: _, [], _, h1, _ => by simp [listCmp] at h1
  | _ :: _, _ :: _, [], _, h2 => by simp [listCmp] at h2
  | a :: as, b :: bs, c :: cs, h1, h2 => by
    unfold listCmp at h1 h2 ⊢
    cases hab : f a b with
    | gt => simp [hab] at h1
    | eq =>
      simp only [hab] at h1
      obtain rfl := heq a b hab
      cases hbc : f a c with
      | gt => simp [hbc] at h2
      | eq =>
        simp only [hbc] at h2
        obtain rfl := heq a c hbc
        simp only [hrefl a]
        exact listCmp_trans f heq hrefl htr as bs cs h1 h2
      | lt => simp only [hbc]
    | lt =>
      cases hbc : f b c with
      | gt => simp [hbc] at h2
      | eq =>
        obtain rfl := heq b c hbc
        simp only [hab]
      | lt => simp only [htr a b c hab hbc]

theorem charCmp_refl (a : Char) : charCmp a a = .eq := natCmp_refl _

theorem charCmp_eq {a b : Char} (h : charCmp a b = .eq) : a = b :=
  Char.eq_of_val_eq (UInt32.ext (natCmp_eq h))

theorem charCmp_swap (a b : Char) : charCmp b a = (charCmp a b).swap :=
  natCmp_swap _ _

theorem charCmp_trans {a b c : Char} (h1 : charCmp a b = .lt) (h2 : charCmp b c = .lt) :
    charCmp a c = .lt := natCmp_trans h1 h2

theorem vrunCmp_refl (a : VRun) : vrunCmp a a = .eq := by
  cases a with
  | num n => exact natCmp_refl n
  | str s => exact listCmp_refl charCmp charCmp_refl s

theorem vrunCmp_eq : ∀ {a b : VRun}, vrunCmp a b = .eq → a = b
  | .num _, .num _, h => by rw [natCmp_eq h]
  | .str _, .str _, h => by
    rw [listCmp_eq charCmp (fun _ _ hab => charCmp_eq hab) _ _ h]
  | .num _, .str _, h => by simp [vrunCmp] at h
  | .str _, .num _, h => by simp [vrunCmp] at h

theorem vrunCmp_swap : ∀ a b : VRun, vrunCmp b a = (vrunCmp a b).swap
  | .num _, .num _ => natCmp_swap _ _
  | .str _, .str _ => listCmp_swap charCmp charCmp_swap _ _
  | .num _, .str _ => rfl
  | .str _, .num _ => rfl

theorem vrunCmp_trans :
    ∀ a b c : VRun, vrunCmp a b = .lt → vrunCmp b c = .lt → vrunCmp a c = .lt
  | .num _, .num _, .num _, h1, h2 => natCmp_trans h1 h2
  | .num _, .num _, .str _, _, _ => rfl
  | .num _, .str _, .num _, _, h2 => by simp [vrunCmp] at h2
  | .num _, .str _, .str _, _, _ => rfl
  | .str _, .num _, _, h1, _ => by simp [vrunCmp] at h1
  | .str _, .str _, .num _, _, h2 => by simp [vrunCmp] at h2
  | .str _, .str _, .str _, h1, h2 =>
    listCmp_trans charCmp (fun _ _ h => charCmp_eq h) charCmp_refl
      (fun _ _ _ ha hb => charCmp_trans ha hb) _ _ _ h1 h2

theorem dollarTok_single (N : Nat) (h : N < 10) : dollarTok N = ['$', digitChar N] := by
  simp [dollarTok, natRepr, natReprAux, h, Nat.mod_eq_of_lt h]

theorem dollarTok_ne_sub :
    ∀ i < 10, ∀ N < 10, i ≠ N → containsSub (dollarTok N) (dollarTok i) = false := by
  decide

theorem splitWS_dollarTok : ∀ N < 10, splitWS (dollarTok N) = [dollarTok N] := by
  decide

theorem parseInt_dollarTok : ∀ N < 10, parseInt ((dollarTok N).drop 1) = some N := by
  decide

theorem render_keep_of_outofrange (m : MatchResult) (N : Nat) (h9 : N ≤ 9)
    (hlen : m.groups.length < N) : render (dollarTok N) m = dollarTok N := by
  unfold render
  apply foldl_const
  intro i hi
  have hi' : i < m.groups.length + 1 := List.mem_range.mp hi
  rw [dollarTok_ne_sub i (by omega) N (by omega) (by omega)]
  simp

theorem render_single_digit (m : MatchResult) (N : Nat) (h9 : N ≤ 9)
    (hle : N ≤ m.groups.length) (hg : '$' ∉ groupText m N) :
    render (dollarTok N) m = groupText m N := by
  unfold render
  have hsplit : List.range (m.groups.length + 1)
      = List.range' 0 N ++ N :: List.range' (N + 1) (m.groups.length - N) := by
    have e1 := List.range'_append 0 N (m.groups.length + 1 - N) 1
    rw [List.range_eq_range']
    rw [show 0 + 1 * N = N by omega] at e1
    rw [show m.groups.length + 1 - N + N = m.groups.length + 1 by omega] at e1
    rw [← e1]
    congr 1
    rw [show m.groups.length + 1 - N = (m.groups.length - N) + 1 by omega,
      List.range'_succ]
  rw [hsplit, List.foldl_append]
  have h1 : (List.range' 0 N).foldl
      (fun t i => if containsSub t (dollarTok i) then
        replaceAll t (dollarTok i) (groupText m i) else t) (dollarTok N)
      = dollarTok N := by
    apply foldl_const
    intro i hi
    have hi' := List.mem_range'_1.mp hi
    rw [dollarTok_ne_sub i (by omega) N (by omega) (by omega)]
    simp
  rw [h1, List.foldl_cons]
  have h2 : (if containsSub (dollarTok N) (dollarTok N) then
      replaceAll (dollarTok N) (dollarTok N) (groupText m N) else dollarTok N)
      = groupText m N := by
    rw [if_pos (by rw [show dollarTok N = '$' :: natRepr N from rfl, containsSub_self])]
    exact replaceAll_self '$' (natRepr N) (groupText m N)
  rw [h2]
  apply foldl_const
  intro i hi
  rw [show dollarTok i = '$' :: natRepr i from rfl,
    containsSub_not_head '$' (natRepr i) (groupText m N) hg]
  simp

theorem group_isSome (m : MatchResult) (n : Nat) (hn : n ≤ m.groups.length) :
    ∃ og, m.group n = some og := by
  unfold MatchResult.group
  by_cases h0 : n = 0
  · exact ⟨some m.group0, by simp [h0]⟩
  · rw [if_neg h0]
    cases hg : m.groups.get? (n - 1) with
    | some og => exact ⟨og, rfl⟩
    | none =>
      have := List.get?_eq_none.mp hg
      omega

theorem renderToken_ok (m : MatchResult) (tok : List Char)
    (h : tok.head? = some '$' →
        (parseInt (tok.drop 1)).getD (m.groups.length + 1) ≤ m.groups.length) :
    renderToken m tok = .ok (tokenValue m tok) := by
  unfold renderToken tokenValue
  by_cases hd : tok.head? = some '$'
  · have h' := h hd
    cases hp : parseInt (tok.drop 1) with
    | none =>
      rw [hp] at h'
      simp at h'
    | some n =>
      rw [hp] at h'
      have hn : n ≤ m.groups.length := by simpa using h'
      obtain ⟨og, hog⟩ := group_isSome m n hn
      rw [if_pos hd, if_pos hd]
      simp [groupText, hog]
  · rw [if_neg hd, if_neg hd]

theorem mapME_ok (f : α → Except ε β) (g : α → β) :
    ∀ l : List α, (∀ a ∈ l, f a = .ok (g a)) → mapME f l = .ok (l.map g)
  | [], _ => rfl
  | a :: t, h => by
    rw [List.map_cons]
    show (match f a with
      | Except.error e => Except.error e
      | Except.ok b =>
        match mapME f t with
        | Except.error e => Except.error e
        | Except.ok bs => Except.ok (b :: bs)) = _
    rw [h a (List.mem_cons_self a t),
      mapME_ok f g t fun b hb => h b (List.mem_cons_of_mem a hb)]

theorem render_list_ok (m : MatchResult) (t : List Char)
    (h : ∀ tok ∈ splitWS t, tok.head? = some '$' →
        (parseInt (tok.drop 1)).getD (m.groups.length + 1) ≤ m.groups.length) :
    render_list t m = .ok ((splitWS t).map (tokenValue m)) := by
  unfold render_list
  exact mapME_ok _ _ _ fun tok htok => renderToken_ok m tok (h tok htok)

theorem render_list_outofrange (m : MatchResult) (N : Nat) (h9 : N ≤ 9)
    (hlen : m.groups.length < N) :
    render_list (dollarTok N) m = .error .indexError := by
  have h10 : N < 10 := by omega
  unfold render_list
  rw [splitWS_dollarTok N h10]
  have hdr : renderToken m (dollarTok N) = .error .indexError := by
    unfold renderToken
    rw [if_pos (show (dollarTok N).head? = some '$' from rfl), parseInt_dollarTok N h10]
    have hg : m.group N = none := by
      unfold MatchResult.group
      rw [if_neg (show ¬ N = 0 by omega)]
      exact List.get?_eq_none.mpr (by omega)
    simp only [hg]
  simp only [mapME, hdr]

theorem gen_loop_cons_percent (evalSec : Section → Except PyErr (List FileItem))
    (strict : Bool) (sname : String) (sec : Section) (rest : List (String × Section))
    (res : Results) (flag : Bool) (hp : sname.toList.head? = some '%') :
    gen_loop evalSec strict ((sname, sec) :: rest) res flag
      = gen_loop evalSec strict rest res flag := by
  conv_lhs => unfold gen_loop
  rw [if_pos hp]

theorem gen_loop_cons_nodistro (evalSec : Section → Except PyErr (List FileItem))
    (strict : Bool) (sname : String) (sec : Section) (rest : List (String × Section))
    (res : Results) (flag : Bool) (hp : ¬ sname.toList.head? = some '%')
    (hd : Section.get? sec "distro" = none) :
    gen_loop evalSec strict ((sname, sec) :: rest) res flag
      = (.error .keyErrorDistro, flag) := by
  conv_lhs => unfold gen_loop
  rw [if_neg hp, hd]

theorem gen_loop_cons_ok (evalSec : Section → Except PyErr (List FileItem))
    (strict : Bool) (sname : String) (sec : Section) (rest : List (String × Section))
    (res : Results) (flag : Bool) (d : String) (items : List FileItem)
    (hp : ¬ sname.toList.head? = some '%')
    (hd : Section.get? sec "distro" = some d)
    (hev : evalSec (withCategoryDefault sec) = .ok items) :
    gen_loop evalSec strict ((sname, sec) :: rest) res flag
      = gen_loop evalSec strict rest
          (addItems res
            (d, (Section.get? (withCategoryDefault sec) "category").getD "os") items)
          flag := by
  conv_lhs => unfold gen_loop
  rw [if_neg hp, hd]
  simp only [hev]

theorem gen_loop_cons_err_strict (evalSec : Section → Except PyErr (List FileItem))
    (sname : String) (sec : Section) (rest : List (String × Section))
    (res : Results) (flag : Bool) (d : String) (e : PyErr)
    (hp : ¬ sname.toList.head? = some '%')
    (hd : Section.get? sec "distro" = some d)
    (hev : evalSec (withCategoryDefault sec) = .error e) :
    gen_loop evalSec true ((sname, sec) :: rest) res flag
      = (.error (.raised e), true) := by
  conv_lhs => unfold gen_loop
  rw [if_neg hp, hd]
  simp only [hev]
  simp

theorem gen_loop_cons_err_nonstrict (evalSec : Section → Except PyErr (List FileItem))
    (sname : String) (sec : Section) (rest : List (String × Section))
    (res : Results) (flag : Bool) (d : String) (e : PyErr)
    (hp : ¬ sname.toList.head? = some '%')
    (hd : Section.get? sec "distro" = some d)
    (hev : evalSec (withCategoryDefault sec) = .error e) :
    gen_loop evalSec false ((sname, sec) :: rest) res flag
      = gen_loop evalSec false rest res true := by
  conv_lhs => unfold gen_loop
  rw [if_neg hp, hd]
  simp only [hev]
  simp

theorem nonStrictFold_cons_percent (evalSec : Section → Except PyErr (List FileItem))
    (sname : String) (sec : Section) (rest : List (String × Section)) (res : Results)
    (hp : sname.toList.head? = some '%') :
    nonStrictFold evalSec ((sname, sec) :: rest) res = nonStrictFold evalSec rest res := by
  conv_lhs => unfold nonStrictFold
  rw [if_pos hp]

theorem nonStrictFold_cons_ok (evalSec : Section → Except PyErr (List FileItem))
    (sname : String) (sec : Section) (rest : List (String × Section)) (res : Results)
    (items : List FileItem)
    (hp : ¬ sname.toList.head? = some '%')
    (hev : evalSec (withCategoryDefault sec) = .ok items) :
    nonStrictFold evalSec ((sname, sec) :: rest) res
      = nonStrictFold evalSec rest
          (addItems res ((Section.get? sec "distro").getD "",
            (Section.get? (withCategoryDefault sec) "category").getD "os") items) := by
  conv_lhs => unfold nonStrictFold
  rw [if_neg hp]
  simp only [hev]

theorem nonStrictFold_cons_err (evalSec : Section → Except PyErr (List FileItem))
    (sname : String) (sec : Section) (rest : List (String × Section)) (res : Results)
    (e : PyErr)
    (hp : ¬ sname.toList.head? = some '%')
    (hev : evalSec (withCategoryDefault sec) = .error e) :
    nonStrictFold evalSec ((sname, sec) :: rest) res = nonStrictFold evalSec rest res := by
  conv_lhs => unfold nonStrictFold
  rw [if_neg hp]
  simp only [hev]

theorem gen_loop_nonstrict (evalSec : Section → Except PyErr (List FileItem)) :
    ∀ (secs : List (String × Section)) (res : Results) (flag : Bool),
      (∀ p ∈ secs, p.1.toList.head? ≠ some '%' → (Section.get? p.2 "distro").isSome) →
      gen_loop evalSec false secs res flag
        = (.ok (nonStrictFold evalSec secs res), flag || secs.any (ruleFailed evalSec))
  | [], res, flag, _ => by
    simp [gen_loop, nonStrictFold]
  | (sname, sec) :: rest, res, flag, h => by
    have hrest : ∀ p ∈ rest, p.1.toList.head? ≠ some '%' →
        (Section.get? p.2 "distro").isSome :=
      fun p hp => h p (List.mem_cons_of_mem _ hp)
    by_cases hp : sname.toList.head? = some '%'
    · rw [gen_loop_cons_percent evalSec false sname sec rest res flag hp,
        gen_loop_nonstrict evalSec rest res flag hrest,
        nonStrictFold_cons_percent evalSec sname sec rest res hp,
        List.any_cons]
      have e2 : ruleFailed evalSec (sname, sec) = false := by
        unfold ruleFailed
        rw [show (sname.toList.head? == some '%') = true from beq_iff_eq.mpr hp]
        rfl
      rw [e2, Bool.false_or]
    · have hd : (Section.get? sec "distro").isSome := h _ (List.mem_cons_self _ _) hp
      obtain ⟨d, hdd⟩ := Option.isSome_iff_exists.mp hd
      cases hev : evalSec (withCategoryDefault sec) with
      | ok items =>
        rw [gen_loop_cons_ok evalSec false sname sec rest res flag d items hp hdd hev,
          gen_loop_nonstrict evalSec rest _ flag hrest,
          nonStrictFold_cons_ok evalSec sname sec rest res items hp hev,
          List.any_cons]
        have e2 : ruleFailed evalSec (sname, sec) = false := by
          unfold ruleFailed
          rw [show (sname.toList.head? == some '%') = false from beq_eq_false_iff_ne.mpr hp,
            hev]
          rfl
        rw [e2, Bool.false_or, hdd]
        rfl
      | error e =>
        rw [gen_loop_cons_err_nonstrict evalSec sname sec rest res flag d e hp hdd hev,
          gen_loop_nonstrict evalSec rest res true hrest,
          nonStrictFold_cons_err evalSec sname sec rest res e hp hev,
          List.any_cons]
        have e2 : ruleFailed evalSec (sname, sec) = true := by
          unfold ruleFailed
          rw [show (sname.toList.head? == some '%') = false from beq_eq_false_iff_ne.mpr hp,
            hev]
          rfl
        rw [e2]
        simp

theorem map_congr_mem {α β : Type _} {f g : α → β} :
    ∀ l : List α, (∀ a ∈ l, f a = g a) → l.map f = l.map g
  | [], _ => rfl
  | a :: t, h => by
    rw [List.map_cons, List.map_cons, h a (List.mem_cons_self a t),
      map_congr_mem t fun b hb => h b (List.mem_cons_of_mem a hb)]

theorem map_id_mem {α : Type _} {f : α → α} :
    ∀ l : List α, (∀ a ∈ l, f a = a) → l.map f = l
  | [], _ => rfl
  | a :: t, h => by
    rw [List.map_cons, h a (List.mem_cons_self a t),
      map_id_mem t fun b hb => h b (List.mem_cons_of_mem a hb)]

theorem leadsWith_append : ∀ l r : List Char, leadsWith l (l ++ r) = true
  | [], _ => rfl
  | c :: t, r => by simp [leadsWith, leadsWith_append t r]

theorem containsSub_nil_needle : ∀ hay : List Char, containsSub hay [] = true
  | [] => rfl
  | _ :: _ => by simp [containsSub, leadsWith]

theorem containsSub_infix (mid : List Char) :
    ∀ pre suf : List Char, containsSub (pre ++ (mid ++ suf)) mid = true
  | [], suf => by
    cases mid with
    | nil => simp [containsSub_nil_needle]
    | cons c t =>
      have h := leadsWith_append (c :: t) suf
      simp only [List.nil_append, List.cons_append] at *
      simp [containsSub, h]
  | p :: pre', suf => by
    simp [containsSub, containsSub_infix mid pre' suf]

theorem replaceAll_nil (pat rep : List Char) : replaceAll [] pat rep = [] := rfl

theorem replaceAllAux_congr (pat rep : List Char) :
    ∀ (f1 : Nat) (s : List Char) (f2 : Nat), s.length ≤ f1 → s.length ≤ f2 →
      replaceAllAux f1 s pat rep = replaceAllAux f2 s pat rep
  | 0, s, f2, h1, _ => by
    have hs : s = [] := List.eq_nil_of_length_eq_zero (Nat.le_zero.mp h1)
    subst hs
    rw [replaceAllAux_nil, replaceAllAux_nil]
  | f1 + 1, s, f2, h1, h2 => by
    cases s with
    | nil => rw [replaceAllAux_nil, replaceAllAux_nil]
    | cons c t =>
      cases f2 with
      | zero => simp at h2
      | succ f2 =>
        simp only [replaceAllAux]
        by_cases hc : (!pat.isEmpty && leadsWith pat (c :: t)) = true
        · rw [if_pos hc, if_pos hc]
          congr 1
          have hpat : 1 ≤ pat.length := by
            rcases Bool.and_eq_true_iff.mp hc with ⟨hp, _⟩
            cases pat with
            | nil => simp at hp
            | cons _ _ => simp
          have hlen : ((c :: t).drop pat.length).length ≤ f1 := by
            simp only [List.length_drop, List.length_cons]
            simp only [List.length_cons] at h1
            omega
          have hlen2 : ((c :: t).drop pat.length).length ≤ f2 := by
            simp only [List.length_drop, List.length_cons]
            simp only [List.length_cons] at h2
            omega
          exact replaceAllAux_congr pat rep f1 _ f2 hlen hlen2
        · rw [if_neg hc, if_neg hc]
          congr 1
          have ht1 : t.length ≤ f1 := by simp at h1; omega
          have ht2 : t.length ≤ f2 := by simp at h2; omega
          exact replaceAllAux_congr pat rep f1 t f2 ht1 ht2

theorem replaceAll_cons (c : Char) (t pat rep : List Char) :
    replaceAll (c :: t) pat rep
      = if !pat.isEmpty && leadsWith pat (c :: t) then
          rep ++ replaceAll ((c :: t).drop pat.length) pat rep
        else c :: replaceAll t pat rep := by
  show replaceAllAux (c :: t).length (c :: t) pat rep = _
  rw [List.length_cons]
  simp only [replaceAllAux]
  by_cases hc : (!pat.isEmpty && leadsWith pat (c :: t)) = true
  · rw [if_pos hc, if_pos hc]
    congr 1
    have hpat : 1 ≤ pat.length := by
      rcases Bool.and_eq_true_iff.mp hc with ⟨hp, _⟩
      cases pat with
      | nil => simp at hp
      | cons _ _ => simp
    exact replaceAllAux_congr pat rep t.length _ _
      (by simp only [List.length_drop, List.length_cons]; omega) (le_refl _)
  · rw [if_neg hc, if_neg hc]
    rfl

theorem replaceAll_skip_clean (ds rep : List Char) :
    ∀ s u : List Char, '$' ∉ s →
      replaceAll (s ++ u) ('$' :: ds) rep = s ++ replaceAll u ('$' :: ds) rep
  | [], u, _ => by simp
  | c :: s', u, h => by
    have hc : ('$' == c) = false :=
      beq_eq_false_iff_ne.mpr fun e => h (by rw [e]; exact List.mem_cons_self c s')
    have h' : '$' ∉ s' := fun e => h (by simp [e])
    rw [List.cons_append, replaceAll_cons]
    rw [show leadsWith ('$' :: ds) (c :: (s' ++ u)) = false by simp [leadsWith, hc]]
    rw [show (!('$' :: ds).isEmpty && false) = false from Bool.and_false _]
    rw [if_neg (by simp)]
    rw [replaceAll_skip_clean ds rep s' u h']
    rfl

theorem replaceAll_tok_head (i : Nat) (u rep : List Char) :
    replaceAll (dollarTok i ++ u) (dollarTok i) rep
      = rep ++ replaceAll u (dollarTok i) rep := by
  rw [show dollarTok i ++ u = '$' :: (natRepr i ++ u) from rfl]
  rw [replaceAll_cons]
  have hl : leadsWith (dollarTok i) ('$' :: (natRepr i ++ u)) = true := by
    rw [show '$' :: (natRepr i ++ u) = dollarTok i ++ u from rfl]
    exact leadsWith_append _ _
  rw [if_pos (show (!(dollarTok i).isEmpty
      && leadsWith (dollarTok i) ('$' :: (natRepr i ++ u))) = true by rw [hl]; rfl)]
  congr 1
  rw [show '$' :: (natRepr i ++ u) = dollarTok i ++ u from rfl, List.drop_left]

theorem digitChar_beq_ne :
    ∀ d < 10, ∀ i < 10, d ≠ i → (digitChar i == digitChar d) = false := by
  decide

theorem dollar_beq_digitChar : ∀ d < 10, ('$' == digitChar d) = false := by
  decide

theorem replaceAll_tok_skip (d i : Nat) (hd : d ≤ 9) (hi : i ≤ 9) (hne : d ≠ i)
    (u rep : List Char) :
    replaceAll (dollarTok d ++ u) (dollarTok i) rep
      = dollarTok d ++ replaceAll u (dollarTok i) rep := by
  rw [dollarTok_single d (by omega), dollarTok_single i (by omega)]
  rw [show (['$', digitChar d] : List Char) ++ u = '$' :: digitChar d :: u from rfl]
  rw [replaceAll_cons]
  have h1 : leadsWith ['$', digitChar i] ('$' :: digitChar d :: u) = false := by
    simp [leadsWith, digitChar_beq_ne d (by omega) i (by omega) hne]
  rw [h1, Bool.and_false, if_neg (by simp)]
  rw [replaceAll_cons]
  have h2 : leadsWith ['$', digitChar i] (digitChar d :: u) = false := by
    simp [leadsWith, dollar_beq_digitChar d (by omega)]
  rw [h2, Bool.and_false, if_neg (by simp)]
  rfl

theorem ref_mem_flatten (i : Nat) : ∀ qs : List Piece, Piece.ref i ∈ qs →
    ∃ pre suf, flattenPieces qs = pre ++ (dollarTok i ++ suf)
  | [], h => absurd h (by simp)
  | p :: qs', h => by
    rcases List.mem_cons.mp h with he | h'
    · exact ⟨[], flattenPieces qs', by rw [← he]; rfl⟩
    · obtain ⟨pre, suf, hps⟩ := ref_mem_flatten i qs' h'
      cases p with
      | lit s =>
        exact ⟨s ++ pre, suf, by simp [flattenPieces, hps]⟩
      | ref d =>
        exact ⟨dollarTok d ++ pre, suf, by simp [flattenPieces, hps]⟩

theorem replaceAll_flatten (i : Nat) (hi : i ≤ 9) (g : List Char) :
    ∀ qs : List Piece, (∀ p ∈ qs, pieceWF p) →
      replaceAll (flattenPieces qs) (dollarTok i) g
        = flattenPieces (qs.map fun p => if p = .ref i then .lit g else p)
  | [], _ => rfl
  | .lit s :: qs', h => by
    have hs : '$' ∉ s := h _ (List.mem_cons_self _ _)
    rw [show flattenPieces (.lit s :: qs') = s ++ flattenPieces qs' from rfl]
    rw [show dollarTok i = '$' :: natRepr i from rfl]
    rw [replaceAll_skip_clean (natRepr i) g s (flattenPieces qs') hs]
    rw [show ('$' :: natRepr i) = dollarTok i from rfl]
    rw [replaceAll_flatten i hi g qs' fun p hp => h p (List.mem_cons_of_mem _ hp)]
    rw [List.map_cons, if_neg (by simp)]
    rfl
  | .ref d :: qs', h => by
    have hd : d ≤ 9 := h _ (List.mem_cons_self _ _)
    rw [show flattenPieces (.ref d :: qs') = dollarTok d ++ flattenPieces qs' from rfl]
    by_cases hdi : d = i
    · subst hdi
      rw [replaceAll_tok_head d (flattenPieces qs') g]
      rw [replaceAll_flatten d hi g qs' fun p hp => h p (List.mem_cons_of_mem _ hp)]
      rw [List.map_cons, if_pos rfl]
      rfl
    · rw [replaceAll_tok_skip d i hd hi hdi (flattenPieces qs') g]
      rw [replaceAll_flatten i hi g qs' fun p hp => h p (List.mem_cons_of_mem _ hp)]
      rw [List.map_cons, if_neg (by simp [hdi])]
      rfl

theorem substUpTo_zero (m : MatchResult) : ∀ p : Piece, substUpTo m 0 p = p := by
  intro p
  cases p with
  | lit s => rfl
  | ref d =>
    simp only [substUpTo]
    rw [if_neg (by omega)]

theorem substUpTo_step (m : MatchResult) (i : Nat) (hi : i ≤ m.groups.length) :
    ∀ p : Piece,
      (if substUpTo m i p = .ref i then Piece.lit (groupText m i) else substUpTo m i p)
        = substUpTo m (i + 1) p := by
  intro p
  cases p with
  | lit s => rfl
  | ref d =>
    simp only [substUpTo]
    by_cases hc : d < i ∧ d ≤ m.groups.length
    · rw [if_pos hc, if_pos (show d < i + 1 ∧ d ≤ m.groups.length by omega)]
      rw [if_neg (by simp)]
    · rw [if_neg hc]
      by_cases hdi : d = i
      · subst hdi
        rw [if_pos rfl, if_pos (show d < d + 1 ∧ d ≤ m.groups.length by omega)]
      · rw [if_neg (by simp [hdi]), if_neg (by omega)]

theorem substUpTo_wf (m : MatchResult) (i : Nat)
    (hg : ∀ d, d ≤ m.groups.length → '$' ∉ groupText m d) :
    ∀ p : Piece, pieceWF p → pieceWF (substUpTo m i p) := by
  intro p hp
  cases p with
  | lit s => exact hp
  | ref d =>
    simp only [substUpTo]
    by_cases hc : d < i ∧ d ≤ m.groups.length
    · rw [if_pos hc]
      exact hg d hc.2
    · rw [if_neg hc]
      exact hp

theorem flatten_no_dollar :
    ∀ qs : List Piece, (∀ p ∈ qs, ∃ s, p = .lit s ∧ '$' ∉ s) →
      '$' ∉ flattenPieces qs
  | [], _ => by simp [flattenPieces]
  | p :: qs', h => by
    obtain ⟨s, rfl, hs⟩ := h p (List.mem_cons_self _ _)
    rw [show flattenPieces (.lit s :: qs') = s ++ flattenPieces qs' from rfl]
    intro hmem
    rcases List.mem_append.mp hmem with h1 | h2
    · exact hs h1
    · exact flatten_no_dollar qs' (fun q hq => h q (List.mem_cons_of_mem _ hq)) h2

theorem render_fold (m : MatchResult) (ps : List Piece)
    (hwf : ∀ p ∈ ps, pieceWF p)
    (hg : ∀ d, d ≤ m.groups.length → '$' ∉ groupText m d) :
    ∀ (k i : Nat), i + k ≤ m.groups.length + 1 →
      (List.range' i k).foldl
        (fun t j => if containsSub t (dollarTok j) then
            replaceAll t (dollarTok j) (groupText m j) else t)
        (flattenPieces (ps.map (substUpTo m i)))
      = flattenPieces (ps.map (substUpTo m (i + k)))
  | 0, i, _ => by simp
  | k + 1, i, hik => by
    have hin : i ≤ m.groups.length := by omega
    have hqswf : ∀ p ∈ ps.map (substUpTo m i), pieceWF p := by
      intro p hp
      obtain ⟨q, hq, rfl⟩ := List.mem_map.mp hp
      exact substUpTo_wf m i hg q (hwf q hq)
    have hstep :
        (if containsSub (flattenPieces (ps.map (substUpTo m i))) (dollarTok i) then
            replaceAll (flattenPieces (ps.map (substUpTo m i))) (dollarTok i)
              (groupText m i)
          else flattenPieces (ps.map (substUpTo m i)))
        = flattenPieces (ps.map (substUpTo m (i + 1))) := by
      by_cases hi9 : i ≤ 9
      · by_cases hsub :
            containsSub (flattenPieces (ps.map (substUpTo m i))) (dollarTok i) = true
        · rw [if_pos hsub]
          rw [replaceAll_flatten i hi9 (groupText m i) _ hqswf]
          rw [List.map_map]
          congr 1
          apply map_congr_mem
          intro p hp
          exact substUpTo_step m i hin p
        · rw [if_neg (by simp [hsub])]
          congr 1
          apply map_congr_mem
          intro p hp
          rw [← substUpTo_step m i hin p]
          rw [if_neg]
          intro he
          apply hsub
          have hmem : Piece.ref i ∈ ps.map (substUpTo m i) :=
            List.mem_map.mpr ⟨p, hp, he⟩
          obtain ⟨pre, suf, hflat⟩ := ref_mem_flatten i _ hmem
          rw [hflat]
          exact containsSub_infix (dollarTok i) pre suf
      · have hlit : ∀ p ∈ ps.map (substUpTo m i), ∃ s, p = .lit s ∧ '$' ∉ s := by
          intro p hp
          obtain ⟨q, hq, rfl⟩ := List.mem_map.mp hp
          cases q with
          | lit s => exact ⟨s, rfl, hwf _ hq⟩
          | ref d =>
            have hd9 : d ≤ 9 := hwf _ hq
            have hcond : d < i ∧ d ≤ m.groups.length := ⟨by omega, by omega⟩
            exact ⟨groupText m d, by simp [substUpTo, hcond], hg d hcond.2⟩
        have hnd : '$' ∉ flattenPieces (ps.map (substUpTo m i)) :=
          flatten_no_dollar _ hlit
        rw [show dollarTok i = '$' :: natRepr i from rfl]
        rw [containsSub_not_head '$' (natRepr i) _ hnd]
        rw [if_neg (by simp)]
        congr 1
        apply map_congr_mem
        intro p hp
        cases p with
        | lit s => rfl
        | ref d =>
          have hd9 : d ≤ 9 := hwf _ hp
          simp only [substUpTo]
          rw [if_pos (show d < i ∧ d ≤ m.groups.length by omega),
            if_pos (show d < i + 1 ∧ d ≤ m.groups.length by omega)]
    rw [List.range'_succ, List.foldl_cons, hstep]
    rw [render_fold m ps hwf hg k (i + 1) (by omega)]
    rw [show i + 1 + k = i + (k + 1) by omega]

theorem render_pieces (m : MatchResult) (ps : List Piece)
    (hwf : ∀ p ∈ ps, pieceWF p)
    (hg : ∀ d, d ≤ m.groups.length → '$' ∉ groupText m d) :
    render (flattenPieces ps) m = flattenPieces (ps.map (substPiece m)) := by
  unfold render
  rw [List.range_eq_range']
  rw [show flattenPieces ps = flattenPieces (ps.map (substUpTo m 0)) by
    rw [map_id_mem ps fun p _ => substUpTo_zero m p]]
  rw [render_fold m ps hwf hg (m.groups.length + 1) 0 (by omega)]
  congr 1
  apply map_congr_mem
  intro p _
  cases p with
  | lit s => rfl
  | ref d =>
    simp only [substUpTo, substPiece]
    by_cases hd : d ≤ m.groups.length
    · rw [if_pos ⟨by omega, hd⟩, if_pos hd]
    · rw [if_neg (by omega), if_neg hd]

theorem digitChar_of_isDigit (d : Char) (h : d.isDigit = true) :
    digitChar (d.toNat - 48) = d ∧ d.toNat - 48 ≤ 9 := by
  unfold Char.isDigit at h
  simp at h
  obtain ⟨h1, h2⟩ := h
  have h1' : 48 ≤ d.toNat := h1
  have h2' : d.toNat ≤ 57 := h2
  clear h1 h2
  constructor
  · rw [show digitChar (d.toNat - 48) = Char.ofNat (48 + (d.toNat - 48)) from rfl]
    rw [show 48 + (d.toNat - 48) = d.toNat by omega]
    exact Char.ofNat_toNat d
  · omega

theorem refsOK_cons_ne (c : Char) (rest : List Char) (hc : ¬ c = '$') :
    refsOK (c :: rest) = refsOK rest := by
  conv_lhs => unfold refsOK
  rw [if_neg hc]

theorem refsOK_cons_dollar (d : Char) (rest' : List Char) :
    refsOK ('$' :: d :: rest') = (d.isDigit && refsOK rest') := by
  conv_lhs => unfold refsOK
  rw [if_pos rfl]

theorem parseTemplate_dollar_digit (d : Char) (rest' : List Char)
    (hd : d.isDigit = true) :
    parseTemplate ('$' :: d :: rest')
      = .ref (d.toNat - 48) :: parseTemplate rest' := by
  conv_lhs => unfold parseTemplate
  rw [if_pos rfl]
  simp [hd]

theorem parseTemplate_cons_ne (c : Char) (rest : List Char) (hc : ¬ c = '$') :
    parseTemplate (c :: rest) = .lit [c] :: parseTemplate rest := by
  conv_lhs => unfold parseTemplate
  rw [if_neg hc]

theorem parseTemplate_spec : ∀ t : List Char, refsOK t = true →
    flattenPieces (parseTemplate t) = t ∧ ∀ p ∈ parseTemplate t, pieceWF p
  | [], _ => ⟨rfl, by simp [parseTemplate]⟩
  | c :: rest, h => by
    by_cases hc : c = '$'
    · subst hc
      cases rest with
      | nil => simp [refsOK] at h
      | cons d rest' =>
        have hh : d.isDigit = true ∧ refsOK rest' = true :=
          Bool.and_eq_true_iff.mp (by rwa [refsOK_cons_dollar] at h)
        obtain ⟨hd, hr⟩ := hh
        obtain ⟨hdc, hd9⟩ := digitChar_of_isDigit d hd
        obtain ⟨ih1, ih2⟩ := parseTemplate_spec rest' hr
        have hparse : parseTemplate ('$' :: d :: rest')
            = .ref (d.toNat - 48) :: parseTemplate rest' :=
          parseTemplate_dollar_digit d rest' hd
        constructor
        · rw [hparse]
          rw [show flattenPieces (.ref (d.toNat - 48) :: parseTemplate rest')
              = dollarTok (d.toNat - 48) ++ flattenPieces (parseTemplate rest') from rfl]
          rw [ih1, dollarTok_single _ (by omega), hdc]
          rfl
        · rw [hparse]
          intro p hp
          rcases List.mem_cons.mp hp with he | hp'
          · rw [he]
            exact hd9
          · exact ih2 p hp'
    · have hr : refsOK rest = true := by rwa [refsOK_cons_ne c rest hc] at h
      obtain ⟨ih1, ih2⟩ := parseTemplate_spec rest hr
      have hparse : parseTemplate (c :: rest) = .lit [c] :: parseTemplate rest :=
        parseTemplate_cons_ne c rest hc
      constructor
      · rw [hparse]
        rw [show flattenPieces (.lit [c] :: parseTemplate rest)
            = [c] ++ flattenPieces (parseTemplate rest) from rfl]
        rw [ih1]
        rfl
      · rw [hparse]
        intro p hp
        rcases List.mem_cons.mp hp with he | hp'
        · rw [he]
          intro hmem
          rcases List.mem_singleton.mp hmem with rfl
          exact hc rfl
        · exact ih2 p hp'

/-! ## Claim theorems -/

/-- C1: evaluation of `get_platform_priority` at the claim's inputs.  The
claimed strict chain `amd64 > arm64 > i686 > armhf > unknown` fails on the
code: `"i686"` and `"armhf"` score 95, the same as `"arm64"`, because the
`("riscv64")` row of the architecture table is a plain string whose single
characters (`'i'`, `'r'`, …) are matched as substrings — contradicting the
code's own comment that `"x86"`-family strings belong to the 90 tier.  The
OS part of the claim (`linux-amd64 > win-amd64`, sum at the thousands
magnitude) does hold. -/
theorem C1_platform_priority :
    get_platform_priority "amd64" = 100 ∧
    get_platform_priority "arm64" = 95 ∧
    get_platform_priority "i686" = 95 ∧
    get_platform_priority "armhf" = 95 ∧
    get_platform_priority "x86" = 95 ∧
    get_platform_priority "unknown" = 0 ∧
    get_platform_priority "linux-amd64" = 5100 ∧
    get_platform_priority "win-amd64" = 4100 ∧
    ¬ get_platform_priority "arm64" > get_platform_priority "i686" ∧
    ¬ get_platform_priority "i686" > get_platform_priority "armhf" := by
  decide

/-- C2: within one grouping key, `parse_section` sorts the group descending
by sort weight and walks it accumulating the set of distinct versions: the
retained candidates contain at most `listvers` distinct version strings;
the walk emits a prefix of the sorted sequence, so the candidate that
pushes the count over the cap and every candidate after it are dropped;
and the concrete group with `listvers = 2` and five distinct versions (two
files each) retains exactly the four files of the two largest versions. -/
theorem C2_version_cap :
    (∀ (lv : Nat) (g : List FileItem),
        ((processGroup lv g).map FileItem.version).toFinset.card ≤ lv) ∧
    (∀ (lv : Nat) (g : List FileItem),
        ∃ n, processGroup lv g = (fileSortDesc g).take n) ∧
    (exampleGroup.map FileItem.version).toFinset.card = 5 ∧
    processGroup 2 exampleGroup
      = [exItem "5" "a5", exItem "5" "b5", exItem "4" "a4", exItem "4" "b4"] ∧
    ((processGroup 2 exampleGroup).map FileItem.version).toFinset.card = 2 := by
  exact ⟨processGroup_card, processGroup_take, by decide, by decide, by decide⟩

/-- C3 counterexample: with `strict = False`, a rule set whose second rule
lacks the `distro` key makes the aggregation loop abort with the uncaught
`KeyError` of line 280 (`section["distro"]` is read before the `try`):
nothing is returned, the third (valid) rule is never evaluated, and the
error flag is left unset — contradicting the claim that any exception
raised while evaluating one rule is caught, flagged, and skipped in
non-strict mode. -/
theorem C3_counterexample :
    gen_loop evalW false
      [("a", secGood), ("b", secNoDistro), ("c", secGood)] [] false
      = (.error .keyErrorDistro, false) := by
  decide

/-- C3 amended: any exception raised by a rule's `parse_section` evaluation
(inside the `try`) is caught: in non-strict mode the loop continues, the
failing rule contributes no entries, every valid rule's entries are still
produced, and the flag records whether any rule failed; in strict mode the
error is re-raised immediately after setting the flag (the result does not
depend on the remaining rules).  The `KeyError` of reading a rule's
`distro` key happens before the `try`, so the amended claim requires every
non-reserved section to carry a `distro` key. -/
theorem C3_amended (evalSec : Section → Except PyErr (List FileItem)) :
    (∀ (secs : List (String × Section)) (res : Results) (flag : Bool),
        (∀ p ∈ secs, p.1.toList.head? ≠ some '%' →
          (Section.get? p.2 "distro").isSome) →
        gen_loop evalSec false secs res flag
          = (.ok (nonStrictFold evalSec secs res),
             flag || secs.any (ruleFailed evalSec))) ∧
    (∀ (sname : String) (sec : Section) (rest : List (String × Section))
        (res : Results) (flag : Bool) (d : String) (e : PyErr),
        sname.toList.head? ≠ some '%' →
        Section.get? sec "distro" = some d →
        evalSec (withCategoryDefault sec) = .error e →
        gen_loop evalSec false ((sname, sec) :: rest) res flag
            = gen_loop evalSec false rest res true ∧
          gen_loop evalSec true ((sname, sec) :: rest) res flag
            = (.error (.raised e), true)) := by
  refine ⟨gen_loop_nonstrict evalSec, ?_⟩
  intro sname sec rest res flag d e hp hd hev
  exact ⟨gen_loop_cons_err_nonstrict evalSec sname sec rest res flag d e hp hd hev,
    gen_loop_cons_err_strict evalSec sname sec rest res flag d e hp hd hev⟩

/-- C3 witness: the amended claim at a concrete rule set: one failing rule
(missing pattern) next to a good rule still yields the good rule's items in
non-strict mode with the flag set, and strict mode aborts at the failing
rule. -/
theorem C3_amended_witness :
    gen_loop evalW false [("a", secGood), ("b", secNoPattern)] [] false
      = (.ok [(("good", "os"), [exItem "1" "q"])], true) ∧
    gen_loop evalW true [("b", secNoPattern), ("a", secGood)] [] false
      = (.error (.raised .assertNoPattern), true) := by
  constructor
  · rw [(C3_amended evalW).1 [("a", secGood), ("b", secNoPattern)] [] false (by decide)]
    decide
  · exact ((C3_amended evalW).2 "b" secNoPattern [("a", secGood)] [] false "bad"
      .assertNoPattern (by decide) (by decide) (by decide)).2

/-- C4 counterexample: with ten capture groups, the well-formed reference
`$10` is NOT replaced by group 10's text: `render` substitutes group 1
into the prefix `$1` and yields `"A0"` (and the reference is not left
intact either), so the claimed substitution rule fails at `N = 10` even
though group 10 exists in the pattern. -/
theorem C4_counterexample :
    MatchResult.group m10 10 = some (some "J".toList) ∧
    render ("$10".toList) m10 = "A0".toList ∧
    "A0".toList ≠ "J".toList ∧
    containsSub ("A0".toList) ("$10".toList) = false := by
  decide

/-- C4 amended: for every template in which each `$` begins a reference
(is immediately followed by a digit) and every match whose group texts
introduce no `$`, `render` performs the simultaneous piece-wise
substitution of the template's decomposition into literal text and
single-digit references: each reference `$d` with `d` up to the group
count is replaced by group `d`'s matched text — the empty string when the
group did not participate — while references past the group count and all
literal text are kept unchanged, and a multi-digit reference is consumed
as its single-digit prefix followed by literal digits (the code's
documented single-digit limitation), all without throwing; `render_list`
splits the template on whitespace, keeps tokens not starting with `$`
literally, resolves `$`-tokens by the same group lookup, and does not
throw for any `$N` token whose group exists in the pattern, in particular
for non-participating optional groups. -/
theorem C4_amended :
    (∀ (m : MatchResult) (t : List Char), refsOK t = true →
        (∀ d, d ≤ m.groups.length → '$' ∉ groupText m d) →
        render t m = flattenPieces ((parseTemplate t).map (substPiece m))) ∧
    (∀ (m : MatchResult) (t : List Char),
        (∀ tok ∈ splitWS t, tok.head? = some '$' →
          (parseInt (tok.drop 1)).getD (m.groups.length + 1) ≤ m.groups.length) →
        render_list t m = .ok ((splitWS t).map (tokenValue m))) := by
  constructor
  · intro m t hok hg
    obtain ⟨hflat, hwf⟩ := parseTemplate_spec t hok
    calc render t m = render (flattenPieces (parseTemplate t)) m := by rw [hflat]
      _ = flattenPieces ((parseTemplate t).map (substPiece m)) :=
        render_pieces m (parseTemplate t) hwf hg
  · exact render_list_ok

/-- C4 witness: the amended claim at the spec's rendering example:
`render("$1-$2", match of ("2024","10"))` yields `"2024-10"`; the same
template against the match whose second group did not participate renders
that group as the empty string without raising; and `render_list` of a
mixed template succeeds by the same group lookup. -/
theorem C4_amended_witness :
    render ("$1-$2".toList) mW = "2024-10".toList ∧
    render ("$1-$2".toList) mX = "2024-".toList ∧
    render_list ("$1 - $2".toList) mW
      = .ok ["2024".toList, "-".toList, "10".toList] := by
  refine ⟨?_, ?_, ?_⟩
  · rw [C4_amended.1 mW ("$1-$2".toList) (by decide) (by decide)]
    decide
  · rw [C4_amended.1 mX ("$1-$2".toList) (by decide) (by decide)]
    decide
  · rw [C4_amended.2 mW ("$1 - $2".toList) (by decide)]
    decide

/-- C5 counterexample: the key assigned to a distribution absent from the
table is `0xFFFF`, which is not numerically maximal: with the table
`d70000 = foo`, the absent distribution `"bar"` sorts BEFORE the present
`"foo"`, contradicting "distributions absent from the table sort after all
distributions present in the table". -/
theorem C5_counterexample :
    List.find? (fun p => p.1 = "bar") [("foo", 70000)] = none ∧
    dNget [("foo", 70000)] "bar" = 0xFFFF ∧
    dNget [("foo", 70000)] "foo" = 70000 ∧
    orderGroups [("foo", 70000)] [gFoo, gBar] = [gBar, gFoo] := by
  decide

/-- C5 amended: `gen_from_sections` orders the groups by a stable ascending
sort on the key `dN.get(distro, 0xFFFF)`: the output is a permutation of
the input, pairwise ordered by that key, and groups with equal keys — in
particular all table-absent distributions, whose key is `0xFFFF` — keep
their input order; an absent distribution therefore sorts after exactly
those present distributions whose key is below `0xFFFF`, not after ones
with larger keys. -/
theorem C5_amended (tbl : List (String × Nat)) (gs : List ListingGroup) :
    (orderGroups tbl gs).Perm gs ∧
    (orderGroups tbl gs).Pairwise
      (fun a b => dNget tbl a.distro ≤ dNget tbl b.distro) ∧
    (∀ v : Nat, (orderGroups tbl gs).filter (fun g => dNget tbl g.distro == v)
        = gs.filter (fun g => dNget tbl g.distro == v)) :=
  ⟨sortStable_perm _ gs, sortByKey_pairwise _ gs, fun v => sortByKey_filter _ v gs⟩

/-- C6 counterexample (spec-modelled `LooseVersion`): the run comparator is
not antisymmetric on version strings: `"1.02"` and `"1.2"` are distinct
strings whose run keys compare equal (the numeric run `02` has value `2`),
so the comparator defines a total preorder, not a total order, on the
strings themselves. -/
theorem C6_counterexample :
    versionCompare "1.02" "1.2" = .eq ∧ "1.02" ≠ "1.2" := by
  decide

/-- C6 amended (spec-modelled `LooseVersion`): the run comparator is a
total preorder on version strings — reflexive, swap-antisymmetric as a
comparator, transitive, and total by construction — and orders the claim's
examples as required: `"10"` after `"9"`, `"1.2.10"` after `"1.2.9"`, and
`"1.2"` before `"1.2.0"` (fewer runs first when the shared runs agree). -/
theorem C6_amended :
    (∀ a : String, versionCompare a a = .eq) ∧
    (∀ a b : String, versionCompare b a = (versionCompare a b).swap) ∧
    (∀ a b c : String, versionCompare a b = .lt → versionCompare b c = .lt →
        versionCompare a c = .lt) ∧
    versionCompare "10" "9" = .gt ∧
    versionCompare "1.2.10" "1.2.9" = .gt ∧
    versionCompare "1.2" "1.2.0" = .lt := by
  refine ⟨?_, ?_, ?_, by decide, by decide, by decide⟩
  · intro a
    exact listCmp_refl vrunCmp vrunCmp_refl _
  · intro a b
    exact listCmp_swap vrunCmp vrunCmp_swap _ _
  · intro a b c h1 h2
    exact listCmp_trans vrunCmp (fun x y h => vrunCmp_eq h) vrunCmp_refl
      vrunCmp_trans _ _ _ h1 h2

/-- C6 witness: the amended transitivity applied at concrete versions. -/
theorem C6_amended_witness : versionCompare "1" "3" = .lt :=
  C6_amended.2.2.1 "1" "2" "3" (by decide) (by decide)

/-- C7: `parse_file` resolves the URL by joining the item's relative path
onto the configured base URL, and formats the display name as
`"version (platform, type)"` when platform and type are both non-empty,
`"version (platform)"` when only the platform is non-empty, and exactly
`"version"` when the platform is empty (the type is then never shown). -/
theorem C7_parse_file (f : FileItem) (urlbase : String) :
    (parse_file f urlbase).url = urljoin urlbase f.path ∧
    (f.platform ≠ "" → f.type ≠ "" →
      (parse_file f urlbase).name
        = f.version ++ " (" ++ f.platform ++ ", " ++ f.type ++ ")") ∧
    (f.platform ≠ "" → f.type = "" →
      (parse_file f urlbase).name = f.version ++ " (" ++ f.platform ++ ")") ∧
    (f.platform = "" → (parse_file f urlbase).name = f.version) := by
  refine ⟨rfl, fun hp ht => ?_, fun hp ht => ?_, fun hp => ?_⟩
  · simp [parse_file, hp, ht, String.append_assoc]
  · simp [parse_file, hp, ht]
  · simp [parse_file, hp]

/-- C7 witness: the three display-name shapes and the URL at concrete
items. -/
theorem C7_parse_file_witness :
    (parse_file fPT "/u/").name
        = fPT.version ++ " (" ++ fPT.platform ++ ", " ++ fPT.type ++ ")" ∧
    (parse_file fP "/u/").name = fP.version ++ " (" ++ fP.platform ++ ")" ∧
    (parse_file fV "/u/").name = fV.version ∧
    (parse_file fPT "/u/").url = urljoin "/u/" fPT.path :=
  ⟨(C7_parse_file fPT "/u/").2.1 (by decide) (by decide),
   (C7_parse_file fP "/u/").2.2.1 (by decide) (by decide),
   (C7_parse_file fV "/u/").2.2.2 (by decide),
   (C7_parse_file fPT "/u/").1⟩

/-- C8: location resolution and the fatal asserts of `parse_section`: a
single `location` key wins; otherwise the contiguous `location_0,
location_1, …` sequence up to the first missing index is used; a section
yielding zero locations, or one whose `pattern` key is absent or empty,
makes `parse_section` raise the corresponding `AssertionError` for any
filesystem and pattern oracles — i.e. before any file is scanned. -/
theorem C8_locations (s : Section) :
    (∀ l, Section.get? s "location" = some l → getLocations s = [l]) ∧
    (∀ (k : Nat) (f : Nat → String), Section.get? s "location" = none →
        (∀ j, j < k → Section.get? s (locKey j) = some (f j)) →
        Section.get? s (locKey k) = none → k ≤ Section.size s →
        getLocations s = (List.range k).map f) ∧
    (∀ globResult search, getLocations s = [] →
        parse_section s globResult search = .error .assertNoLocation) ∧
    (∀ globResult search, getLocations s ≠ [] →
        (Section.get? s "pattern").getD "" = "" →
        parse_section s globResult search = .error .assertNoPattern) := by
  refine ⟨fun l h => getLocations_single s l h,
    fun k f h1 h2 h3 h4 => getLocations_contiguous s k f h1 h2 h3 h4, ?_, ?_⟩
  · intro gr se hloc
    simp [parse_section, parse_section_header, hloc]
  · intro gr se hloc hpat
    simp [parse_section, parse_section_header, hloc, hpat]

/-- C8 witness: the claim at concrete sections: the contiguous two-element
location sequence, the missing-location assert, and the missing-pattern
assert. -/
theorem C8_locations_witness :
    getLocations sW1 = ["iso/*", "img/*"] ∧
    parse_section sW2 (fun _ => []) (fun _ => none) = .error .assertNoLocation ∧
    parse_section sW3 (fun _ => []) (fun _ => none) = .error .assertNoPattern := by
  refine ⟨?_, ?_, ?_⟩
  · rw [(C8_locations sW1).2.1 2 (fun j => if j = 0 then "iso/*" else "img/*")
      (by decide) (by decide) (by decide) (by decide)]
    decide
  · exact (C8_locations sW2).2.2.1 _ _ (by decide)
  · exact (C8_locations sW3).2.2.2 _ _ (by decide) (by decide)

/-- C9: for a section that passes the location and pattern asserts and
whose `listvers` parses, any `pattern_use_name` value other than `"true"`
or `"false"` compared case-insensitively makes `str2bool` raise
`ValueError`, so `parse_section` fails for that rule — a fatal per-rule
configuration error exactly like a missing pattern — independent of the
filesystem and pattern oracles. -/
theorem C9_invalid_bool (s : Section) (v : String)
    (hloc : getLocations s ≠ [])
    (hpat : (Section.get? s "pattern").getD "" ≠ "")
    (hlv : (listversOf s).isSome)
    (hv : Section.get? s "pattern_use_name" = some v)
    (ht : lowerStr v.toList ≠ "true".toList)
    (hf : lowerStr v.toList ≠ "false".toList) :
    parse_section_header s = .error .valueError ∧
    ∀ globResult search, parse_section s globResult search = .error .valueError := by
  have hh : parse_section_header s = .error .valueError := by
    obtain ⟨lv, hlv'⟩ := Option.isSome_iff_exists.mp hlv
    have ht' : ¬ lowerStr v.data = ['t', 'r', 'u', 'e'] := ht
    have hf' : ¬ lowerStr v.data = ['f', 'a', 'l', 's', 'e'] := hf
    simp [parse_section_header, hloc, hpat, hlv', hv, str2bool, ht', hf']
  exact ⟨hh, fun gr se => by simp [parse_section, hh]⟩

/-- C9 witness: the claim at a section whose `pattern_use_name` is
`"yes"`. -/
theorem C9_invalid_bool_witness :
    parse_section sW4 (fun _ => []) (fun _ => none) = .error .valueError :=
  (C9_invalid_bool sW4 "yes" (by decide) (by decide) (by decide) (by decide)
    (by decide) (by decide)).2 _ _

/-- C10 counterexample: for the out-of-range reference `$25` against a
two-group pattern, `render` does not leave the reference as literal text:
it substitutes group 2 into the in-range prefix `$2` and yields `"B5"`
(still without raising), so the claimed render behaviour fails for
multi-digit out-of-range references. -/
theorem C10_counterexample :
    m2.groups.length = 2 ∧
    render ("$25".toList) m2 = "B5".toList ∧
    "B5".toList ≠ "$25".toList := by
  decide

/-- C10 amended: for a single-digit reference `$N` whose index exceeds the
pattern's group count, `render` returns the template unchanged and does not
raise, while `render_list` raises `IndexError` on the same template — the
two renderers disagree on out-of-range references.  (A multi-digit
out-of-range reference may instead have an in-range single-digit prefix
substituted by `render`, see the counterexample.) -/
theorem C10_amended (m : MatchResult) (N : Nat) (h9 : N ≤ 9)
    (hlen : m.groups.length < N) :
    render (dollarTok N) m = dollarTok N ∧
    render_list (dollarTok N) m = .error .indexError :=
  ⟨render_keep_of_outofrange m N h9 hlen, render_list_outofrange m N h9 hlen⟩

/-- C10 witness: the amended claim at `$5` against the two-group match. -/
theorem C10_amended_witness :
    render (dollarTok 5) m2 = dollarTok 5 ∧
    render_list (dollarTok 5) m2 = .error .indexError :=
  C10_amended m2 5 (by decide) (by decide)

end Genisolist
